import Mathlib

/-
Formal model of the trout text editor core (src/textbuffer/lines.rs,
src/textbuffer/buffer.rs, src/view/screen.rs), as a shallow embedding.

Modelling conventions:
- Rust String / str values are lists of unicode scalars (List Char); byte
  positions are computed with Char.utf8Size, so all index arithmetic is in
  terms of UTF-8 byte offsets exactly as in the source.
- Operations that can panic (out of bounds Vec indexing, slicing a string
  at a non boundary byte, explicit panic calls) return Option; none means
  the Rust code panics.
- usize arithmetic is Nat; Rust saturating_sub coincides with Nat
  subtraction.  Where the source performs a bare subtraction that can
  underflow, the model uses wrapping subtraction modulo 2^64 (release
  build semantics of usize); this is the function wsub below.
- The unicode_segmentation crate is modelled by passing the grapheme
  cluster decomposition of a string explicitly: a List Str whose join is
  the string, each cluster nonempty.  Where the source re-segments a
  string internally with no caller control, the model uses the
  decomposition into singleton clusters (function segmentChars), which agrees
  with extended grapheme segmentation on text free of multi scalar
  clusters; every concrete input used below is of that form.
-/

abbrev Str := List Char

/-- Byte length of a string, as Rust String::len. -/
def utf8Len (s : Str) : Nat := (s.map Char.utf8Size).sum

/-- Wrapping subtraction on usize (release build semantics).  On the
usize value range (both arguments below 2^64) this is exactly two
complement wrapping; above that range, unreachable for real usize
values, it extends by exact subtraction. -/
def wsub (a b : Nat) : Nat :=
  if b ≤ a then a - b else (a + (2 ^ 64 - b % 2 ^ 64)) % 2 ^ 64

/-- Split a string at a byte offset; none when the offset is larger than
the byte length or falls inside a scalar, where Rust slicing panics. -/
def byteSplit : Nat → Str → Option (Str × Str)
  | 0, s => some ([], s)
  | _+1, [] => none
  | n+1, c :: s =>
    if c.utf8Size ≤ n + 1 then
      (byteSplit (n + 1 - c.utf8Size) s).map (fun p => (c :: p.1, p.2))
    else none

/-- Rust slice expression text[a..b] (byte range, b exclusive). -/
def byteSlice (s : Str) (a b : Nat) : Option Str :=
  if a ≤ b then
    match byteSplit a s with
    | none => none
    | some p =>
      match byteSplit (b - a) p.2 with
      | none => none
      | some q => some q.1
  else none

/-- Rust String::insert_str at a byte offset. -/
def byteInsert (s : Str) (a : Nat) (t : Str) : Option Str :=
  (byteSplit a s).map (fun p => p.1 ++ t ++ p.2)

/-- Rust String::replace_range(a..b, "") (byte range, b exclusive). -/
def byteRemove (s : Str) (a b : Nat) : Option Str :=
  if a ≤ b then
    match byteSplit a s with
    | none => none
    | some p =>
      match byteSplit (b - a) p.2 with
      | none => none
      | some q => some (p.1 ++ q.2)
  else none

/-- Line (src/textbuffer/lines.rs): text plus the grapheme boundary
tables.  grapheme_starts and grapheme_ends hold byte offsets. -/
structure Line where
  text : Str
  grapheme_count : Nat
  grapheme_starts : List Nat
  grapheme_ends : List Nat
  deriving DecidableEq, Repr

/-- Cluster start offsets: byte offset of each cluster, first at acc. -/
def clusterStarts : List Str → Nat → List Nat
  | [], _ => []
  | c :: rest, acc => acc :: clusterStarts rest (acc + utf8Len c)

/-- Cluster end offsets: last byte of each cluster (inclusive). -/
def clusterEnds : List Str → Nat → List Nat
  | [], _ => []
  | c :: rest, acc => (acc + utf8Len c - 1) :: clusterEnds rest (acc + utf8Len c)

/-- Line::from_string, with the grapheme segmentation of the input made
explicit: cs is the cluster list produced by grapheme_indices, the input
string is cs.flatten.  The source pushes each later cluster start minus one
into grapheme_ends and finally the byte length minus one; for contiguous
clusters this is exactly clusterEnds cs 0 (both subtractions saturate). -/
def Line.from_clusters (cs : List Str) : Line :=
  { text := cs.flatten
  , grapheme_count := cs.length
  , grapheme_starts := clusterStarts cs 0
  , grapheme_ends := clusterEnds cs 0 }

/-- Segmentation into singleton clusters; agrees with extended grapheme
segmentation on text free of multi scalar clusters. -/
def segmentChars (s : Str) : List Str := s.map (fun c => [c])

/-- Line::from_string for strings whose clusters are single scalars. -/
def Line.from_string (s : Str) : Line := Line.from_clusters (segmentChars s)

/-- Line::insert_char.  Panics (none) when the grapheme index exceeds
grapheme_count, via the explicit check in the source; the three branches
(start, end, middle) mirror the source.  The boundary shift loop over
idx in [gi, count) followed by the insert at gi is written as take and
map over drop. -/
def Line.insert_char (l : Line) (gi : Nat) (c : Char) : Option Line :=
  if gi > l.grapheme_count then none
  else if gi = 0 then
    some { text := c :: l.text
         , grapheme_count := l.grapheme_count + 1
         , grapheme_starts := 0 :: l.grapheme_starts.map (· + c.utf8Size)
         , grapheme_ends := (c.utf8Size - 1) :: l.grapheme_ends.map (· + c.utf8Size) }
  else if gi = l.grapheme_count then
    let st := l.grapheme_ends.getLastD 0 + 1
    some { text := l.text ++ [c]
         , grapheme_count := l.grapheme_count + 1
         , grapheme_starts := l.grapheme_starts ++ [st]
         , grapheme_ends := l.grapheme_ends ++ [st + c.utf8Size - 1] }
  else
    match l.grapheme_starts[gi]? with
    | none => none
    | some tp =>
      match byteInsert l.text tp [c] with
      | none => none
      | some text' =>
        some { text := text'
             , grapheme_count := l.grapheme_count + 1
             , grapheme_starts :=
                 l.grapheme_starts.take gi ++ [tp] ++
                   (l.grapheme_starts.drop gi).map (· + c.utf8Size)
             , grapheme_ends :=
                 l.grapheme_ends.take gi ++ [tp + c.utf8Size - 1] ++
                   (l.grapheme_ends.drop gi).map (· + c.utf8Size) }

/-- Line::insert_str, with the segmentation ds of the inserted string
explicit (the source derives it by from_string; the inserted string is
ds.flatten).  When grapheme_count is zero the source overwrites self with
from_string of the inserted text and then falls through WITHOUT
returning, so the text is inserted again; the model reproduces this. -/
def Line.insert_str_body (l : Line) (gi : Nat) (ds : List Str) : Option Line :=
  match l.grapheme_starts[gi]? with
  | none => none
  | some insertIdx =>
    match byteInsert l.text insertIdx ds.flatten with
    | none => none
    | some text' =>
      let ilen := match (Line.from_clusters ds).grapheme_ends.getLast? with
        | none => 0
        | some v => v + 1
      some { text := text'
           , grapheme_count := l.grapheme_count + ds.length
           , grapheme_starts :=
               l.grapheme_starts.take gi ++
                 ((Line.from_clusters ds).grapheme_starts.map (· + insertIdx)) ++
                 (l.grapheme_starts.drop gi).map (· + ilen)
           , grapheme_ends :=
               l.grapheme_ends.take gi ++
                 ((Line.from_clusters ds).grapheme_ends.map (· + insertIdx)) ++
                 (l.grapheme_ends.drop gi).map (· + ilen) }

/-- Line::insert_str entry: the overwrite-then-fall-through on an empty
line, followed by the body above. -/
def Line.insert_str (l : Line) (gi : Nat) (ds : List Str) : Option Line :=
  Line.insert_str_body (if l.grapheme_count = 0 then Line.from_clusters ds else l) gi ds

/-- Line::delete_grapheme.  An index at or past grapheme_count is a
no-op.  The shift loop runs over idx in [gi, count) including the entry
being removed, whose bare subtraction can underflow; wsub models the
wrap.  The entry is then removed. -/
def Line.delete_grapheme (l : Line) (gi : Nat) : Option Line :=
  if gi ≥ l.grapheme_count then some l
  else
    match l.grapheme_starts[gi]?, l.grapheme_ends[gi]? with
    | some sb, some eb =>
      match byteRemove l.text sb (eb + 1) with
      | none => none
      | some text' =>
        let glen := eb - sb + 1
        some { text := text'
             , grapheme_count := l.grapheme_count - 1
             , grapheme_starts :=
                 (l.grapheme_starts.take gi ++
                   (l.grapheme_starts.drop gi).map (fun x => wsub x glen)).eraseIdx gi
             , grapheme_ends :=
                 (l.grapheme_ends.take gi ++
                   (l.grapheme_ends.drop gi).map (fun x => wsub x glen)).eraseIdx gi }
    | _, _ => none

/-- Line::grapheme_start: 0 on an empty line, clamps a too large index
to the last entry. -/
def Line.grapheme_start (l : Line) (gi : Nat) : Option Nat :=
  if l.grapheme_count = 0 then some 0
  else if gi ≥ l.grapheme_count then l.grapheme_starts[l.grapheme_count - 1]?
  else l.grapheme_starts[gi]?

/-- Line::grapheme_end: 0 on an empty line; otherwise indexes the ends
table directly with NO range check. -/
def Line.grapheme_end (l : Line) (gi : Nat) : Option Nat :=
  if l.grapheme_count = 0 then some 0
  else l.grapheme_ends[gi]?

/-- Line::next_grapheme_start: clamps gi at or past count to the last
start, otherwise reads entry gi + 1 with no bound check. -/
def Line.next_grapheme_start (l : Line) (gi : Nat) : Option Nat :=
  if l.grapheme_count = 0 then some 0
  else if gi ≥ l.grapheme_count then l.grapheme_starts[l.grapheme_count - 1]?
  else l.grapheme_starts[gi + 1]?

/-- Line::prev_grapheme_start. -/
def Line.prev_grapheme_start (l : Line) (gi : Nat) : Option Nat :=
  if l.grapheme_count = 0 then some 0
  else if gi = 0 then l.grapheme_starts[0]?
  else l.grapheme_starts[gi - 1]?

/-- Line::next_grapheme_end: clamps gi at or past count to the last end,
otherwise reads entry gi + 1 with no bound check. -/
def Line.next_grapheme_end (l : Line) (gi : Nat) : Option Nat :=
  if l.grapheme_count = 0 then some 0
  else if gi ≥ l.grapheme_count then l.grapheme_ends[l.grapheme_count - 1]?
  else l.grapheme_ends[gi + 1]?

/-- Line::prev_grapheme_end. -/
def Line.prev_grapheme_end (l : Line) (gi : Nat) : Option Nat :=
  if l.grapheme_count = 0 then some 0
  else if gi = 0 then l.grapheme_ends[0]?
  else l.grapheme_ends[gi - 1]?

/-- Scan loop of Line::text_index_to_grapheme: the fuel argument is the
number of loop iterations left (grapheme_count at the top call, so the
scan covers idx in [0, count) exactly); after the loop the fallback is
count - 1.  none when the tables are read out of bounds. -/
def Line.tig_go (l : Line) (ti : Nat) : Nat → Nat → Option Nat
  | 0, _ => some (l.grapheme_count - 1)
  | fuel + 1, i =>
    match l.grapheme_starts[i]?, l.grapheme_ends[i]? with
    | some sb, some eb =>
      if eb ≥ ti ∧ sb ≤ ti then some i
      else Line.tig_go l ti fuel (i + 1)
    | _, _ => none

/-- Line::text_index_to_grapheme. -/
def Line.text_index_to_grapheme (l : Line) (ti : Nat) : Option Nat :=
  if l.grapheme_count = 0 then some 0
  else if ti > utf8Len l.text then some (l.grapheme_count - 1)
  else Line.tig_go l ti l.grapheme_count 0

/-- Scan loop of Line::text_index_to_grapheme_range, as tig_go; the
fallback after the loop is the range of the last grapheme. -/
def Line.tigr_go (l : Line) (ti : Nat) : Nat → Nat → Option (Nat × Nat)
  | 0, _ =>
    match l.grapheme_starts[l.grapheme_count - 1]?, l.grapheme_ends[l.grapheme_count - 1]? with
    | some sb, some eb => some (sb, eb + 1)
    | _, _ => none
  | fuel + 1, i =>
    match l.grapheme_starts[i]?, l.grapheme_ends[i]? with
    | some sb, some eb =>
      if eb ≥ ti ∧ sb ≤ ti then some (sb, eb + 1)
      else Line.tigr_go l ti fuel (i + 1)
    | _, _ => none

/-- Line::text_index_to_grapheme_range, returning the byte range as a
pair (start, end exclusive). -/
def Line.text_index_to_grapheme_range (l : Line) (ti : Nat) : Option (Nat × Nat) :=
  if l.grapheme_count = 0 then some (0, 0)
  else if ti > utf8Len l.text then
    match l.grapheme_starts[0]?, l.grapheme_ends[0]? with
    | some sb, some eb => some (sb, eb)
    | _, _ => none
  else Line.tigr_go l ti l.grapheme_count 0

/-- Line::split_line: truncates the text at a byte index and returns the
rest as a fresh line built by from_string.  The boundary tables of the
truncated line are NOT updated by the source; the model keeps them.  The
segmentation of the returned suffix uses segmentChars. -/
def Line.split_line (l : Line) (index : Nat) : Option (Line × Line) :=
  match byteSplit index l.text with
  | none => none
  | some p => some ({ l with text := p.1 }, Line.from_string p.2)

/-- Line::split_line_grapheme: reads the start of the given grapheme
with a direct unchecked index and splits there. -/
def Line.split_line_grapheme (l : Line) (gi : Nat) : Option (Line × Line) :=
  match l.grapheme_starts[gi]? with
  | none => none
  | some b => l.split_line b

/-- Validity of a cluster decomposition: grapheme_indices never yields
an empty cluster. -/
def ValidC (cs : List Str) : Prop := ∀ c ∈ cs, c ≠ []

/-- The boundary partition invariant of claim C5, spelled out on the
fields of a Line: tables of the same length as the count, both strictly
increasing, first start 0, each range nonempty, consecutive ranges
adjacent, last range ending at the byte length, tables empty iff the
text is empty. -/
def LineWF (l : Line) : Prop :=
  l.grapheme_starts.length = l.grapheme_count ∧
  l.grapheme_ends.length = l.grapheme_count ∧
  l.grapheme_starts.Chain' (· < ·) ∧
  l.grapheme_ends.Chain' (· < ·) ∧
  (l.grapheme_count = 0 ↔ l.text = []) ∧
  (0 < l.grapheme_count → l.grapheme_starts.getD 0 0 = 0) ∧
  (∀ i, i < l.grapheme_count → l.grapheme_starts.getD i 0 ≤ l.grapheme_ends.getD i 0) ∧
  (∀ i, i + 1 < l.grapheme_count →
    l.grapheme_ends.getD i 0 + 1 = l.grapheme_starts.getD (i + 1) 0) ∧
  (0 < l.grapheme_count →
    l.grapheme_ends.getD (l.grapheme_count - 1) 0 + 1 = utf8Len l.text)

/-- One Line mutation of claim C5: character insertion, string
insertion (with its cluster decomposition), grapheme deletion. -/
inductive LineOp where
  | ins_char : Nat → Char → LineOp
  | ins_str : Nat → List Str → LineOp
  | del : Nat → LineOp

/-- Apply one operation to a line. -/
def LineOp.apply (l : Line) : LineOp → Option Line
  | .ins_char gi c => l.insert_char gi c
  | .ins_str gi ds => l.insert_str gi ds
  | .del gi => l.delete_grapheme gi

/-- Apply a sequence of operations; none as soon as one panics. -/
def applyOps : Line → List LineOp → Option Line
  | l, [] => some l
  | l, op :: ops =>
    match LineOp.apply l op with
    | none => none
    | some l' => applyOps l' ops

/-- A valid operation: a string insertion carries a valid cluster
decomposition (as from_string always produces). -/
def LineOp.ValidOp : LineOp → Prop
  | .ins_str _ ds => ValidC ds
  | _ => True

instance (ds : List Str) : Decidable (ValidC ds) :=
  decidable_of_iff (∀ c ∈ ds, c ≠ []) Iff.rfl

instance (op : LineOp) : Decidable op.ValidOp :=
  match op with
  | .ins_char _ _ => isTrue trivial
  | .ins_str _ ds => inferInstanceAs (Decidable (ValidC ds))
  | .del _ => isTrue trivial

/-- Buffer (src/textbuffer/buffer.rs).  The file extension hint, the
target path and the iterator cursor are omitted: no claim concerns
them. -/
structure Buffer where
  text : List Line
  num_lines : Nat
  deriving DecidableEq, Repr

/-- TextPosition (src/textbuffer/text_location.rs). -/
structure TextPosition where
  row : Nat
  byte : Nat
  grapheme : Nat
  deriving DecidableEq, Repr

/-- Vec::insert: shifts the tail right; panics when the index exceeds
the length. -/
def vecInsert {α : Type} (ls : List α) (i : Nat) (a : α) : Option (List α) :=
  if i ≤ ls.length then some (ls.take i ++ a :: ls.drop i) else none

/-- Buffer::new_line.  At or past the end it appends an empty line;
otherwise it splits the target line at the grapheme and inserts the
returned suffix line AT index line, that is before the truncated target
line (Vec::insert at line). -/
def Buffer.new_line (b : Buffer) (line gi : Nat) : Option Buffer :=
  if line ≥ b.num_lines then
    some { text := b.text ++ [Line.from_string []], num_lines := b.num_lines + 1 }
  else
    match b.text[line]? with
    | none => none
    | some l =>
      match l.split_line_grapheme gi with
      | none => none
      | some pq =>
        match vecInsert (b.text.set line pq.1) line pq.2 with
        | none => none
        | some ls => some { text := ls, num_lines := b.num_lines + 1 }

/-- Texts of the whole interior rows: the fuel argument is hi - lo at
the top call, so the collected rows are idx in [lo, hi) in order. -/
def Buffer.interior_go (b : Buffer) : Nat → Nat → Option (List Str)
  | 0, _ => some []
  | fuel + 1, lo =>
    match b.text[lo]? with
    | none => none
    | some l =>
      match Buffer.interior_go b fuel (lo + 1) with
      | none => none
      | some rest => some (l.text :: rest)

/-- Texts of the whole interior rows, idx in [lo, hi), in order. -/
def Buffer.interior_texts (b : Buffer) (lo hi : Nat) : Option (List Str) :=
  Buffer.interior_go b (hi - lo) lo

/-- Buffer::copy_text.  Same row: the inclusive byte range between the
start of the start grapheme and the end of the end grapheme.  Multi row:
the start row suffix, the interior rows, and an inclusive prefix slice
taken from the START row text (the source indexes start_position.row on
the final push), joined by a newline. -/
def Buffer.copy_text (b : Buffer) (sp ep : TextPosition) : Option Str :=
  if sp.row = ep.row then
    match b.text[sp.row]? with
    | none => none
    | some l =>
      match l.grapheme_start sp.grapheme, l.grapheme_end ep.grapheme with
      | some sb, some eb => byteSlice l.text sb (eb + 1)
      | _, _ => none
  else
    match b.text[sp.row]?, b.text[ep.row]? with
    | some ls, some le =>
      match ls.grapheme_start sp.grapheme, le.grapheme_end ep.grapheme with
      | some sb, some eb =>
        match byteSplit sb ls.text with
        | none => none
        | some p =>
          match Buffer.interior_texts b (sp.row + 1) ep.row with
          | none => none
          | some mids =>
            match byteSlice ls.text 0 (eb + 1) with
            | none => none
            | some fin => some (List.intercalate ['\n'] (p.2 :: (mids ++ [fin])))
      | _, _ => none
    | _, _ => none

/-- Newline count of one line text. -/
def lineNl (l : Line) : Nat := l.text.count '\n'

/-- Newline count over a list of lines. -/
def totalNl (ls : List Line) : Nat := (ls.map lineNl).sum

/-- Split a string before its first newline character; none when the
string has none.  Models Regex::new of a newline followed by find: the
match start is the byte offset of the first newline, and split_line at
that offset cuts the text exactly here. -/
def findNlSplit : Str → Option (Str × Str)
  | [] => none
  | c :: s =>
    if c = '\n' then some ([], c :: s)
    else (findNlSplit s).map (fun p => (c :: p.1, p.2))

/-- Loop of Buffer::fix_newlines (a do-while over idx, equivalent to a
while idx < len loop since the caller checks the buffer is nonempty).
Each iteration looks for a newline in line idx; if found, the line is
split there keeping its stale boundary tables, the suffix becomes a
fresh line whose leading newline grapheme is deleted, and that line is
inserted at idx + 1.  fuel bounds the number of iterations; the lemma
fix_loop_enough below shows the fuel chosen by fix_newlines never runs
out. -/
def Buffer.fix_loop : Nat → List Line → Nat → Nat → Option (List Line × Nat)
  | 0, _, _, _ => none
  | fuel + 1, ls, n, idx =>
    if idx ≥ ls.length then some (ls, n)
    else
      match ls[idx]? with
      | none => none
      | some l =>
        match findNlSplit l.text with
        | none => Buffer.fix_loop fuel ls n (idx + 1)
        | some pq =>
          match (Line.from_string pq.2).delete_grapheme 0 with
          | none => none
          | some nl =>
            match vecInsert (ls.set idx { l with text := pq.1 }) (idx + 1) nl with
            | none => none
            | some ls' => Buffer.fix_loop fuel ls' (n + 1) (idx + 1)

/-- Buffer::fix_newlines. -/
def Buffer.fix_newlines (b : Buffer) : Option Buffer :=
  if b.text.length = 0 then some b
  else
    match Buffer.fix_loop (totalNl b.text + b.text.length + 1) b.text b.num_lines 0 with
    | none => none
    | some p => some { text := p.1, num_lines := p.2 }

/-- Buffer::paste_text, with the segmentation of the pasted string made
explicit (the pasted string is ds.flatten). -/
def Buffer.paste_text (b : Buffer) (p : TextPosition) (ds : List Str) : Option Buffer :=
  match b.text[p.row]? with
  | none => none
  | some l =>
    match l.insert_str p.grapheme ds with
    | none => none
    | some l' => Buffer.fix_newlines { b with text := b.text.set p.row l' }

/-- Terminal size (src/terminal/controls.rs). -/
structure Size where
  height : Nat
  width : Nat
  deriving DecidableEq, Repr

/-- ScreenLocation (src/terminal/screen_location.rs). -/
structure ScreenLocation where
  row : Nat
  col : Nat
  deriving DecidableEq, Repr

/-- Boundary insets (src/view/screen.rs). -/
structure Boundary where
  top : Nat
  right : Nat
  left : Nat
  bottom : Nat
  deriving DecidableEq, Repr

/-- Boundary::default: left 4 for line numbers, bottom 2 for the status
and command lines. -/
def Boundary.default : Boundary := { top := 0, right := 0, left := 4, bottom := 2 }

/-- Screen (src/view/screen.rs).  The mode, welcome and quit flags are
omitted: no claim concerns them.  Terminal caret output is external
IO and is not part of the state. -/
structure Screen where
  buffer : Buffer
  screen_location : ScreenLocation
  text_position : TextPosition
  scroll_offset : ScreenLocation
  inner_boundary : Boundary
  size : Size
  deriving DecidableEq, Repr

/-- Screen::view_width.  The source subtracts with bare usize
subtraction; the states considered keep the window wider than the
insets, where Nat subtraction agrees. -/
def Screen.view_width (s : Screen) : Nat :=
  s.size.width - s.inner_boundary.left - s.inner_boundary.right

/-- Screen::view_height. -/
def Screen.view_height (s : Screen) : Nat :=
  s.size.height - s.inner_boundary.top - s.inner_boundary.bottom

/-- Offset update of Screen::scroll_vertical and scroll_horizontal: the
first comparison uses saturating_sub, the assignment subtracts the old
offset and the view extent from the cursor position (both differences
nonnegative under the guard, so Nat subtraction agrees). -/
def scrollOffsetUpdate (pos off ext : Nat) : Nat :=
  if pos - off > ext then pos - off - ext
  else if pos < off then pos
  else off

/-- Screen::scroll_vertical. -/
def Screen.scroll_vertical (s : Screen) : Screen :=
  { s with scroll_offset :=
      { s.scroll_offset with
          row := scrollOffsetUpdate s.text_position.row s.scroll_offset.row s.view_height } }

/-- Screen::scroll_horizontal. -/
def Screen.scroll_horizontal (s : Screen) : Screen :=
  { s with scroll_offset :=
      { s.scroll_offset with
          col := scrollOffsetUpdate s.text_position.grapheme s.scroll_offset.col s.view_width } }

/-- Screen::sync_screen_position: scroll relative position plus inset.
The source subtracts with bare usize subtraction; after the scroll
adjustment the cursor is at or right of the offset, so Nat subtraction
agrees. -/
def Screen.sync_screen_position (s : Screen) : Screen :=
  { s with screen_location :=
      { col := s.text_position.grapheme - s.scroll_offset.col + s.inner_boundary.left
      , row := s.text_position.row - s.scroll_offset.row + s.inner_boundary.top } }

/-- Screen::scroll_into_view: vertical, then horizontal, then screen
position sync. -/
def Screen.scroll_into_view (s : Screen) : Screen :=
  s.scroll_vertical.scroll_horizontal.sync_screen_position

/-- Screen::sync_text_position_byte_to_grapheme.  When the cursor
grapheme is at or past the line count the source assigns
grapheme_count - 1 by bare subtraction: on an empty line this is an
underflow, wrapping in a release build (wsub; a debug build aborts).
Indexing an empty buffer panics in both builds (none). -/
def Screen.sync_text_position_byte_to_grapheme (s : Screen) : Option Screen :=
  match s.buffer.text[s.text_position.row]? with
  | none => none
  | some l =>
    let g := if s.text_position.grapheme ≥ l.grapheme_count
      then wsub l.grapheme_count 1 else s.text_position.grapheme
    match l.grapheme_start g with
    | none => none
    | some bt =>
      some { s with text_position := { row := s.text_position.row, grapheme := g, byte := bt } }

/-- Screen::move_down: advance the row when below the last line, then
resync the byte cache and scroll into view.  The terminal caret move is
external IO and is dropped. -/
def Screen.move_down (s : Screen) : Option Screen :=
  let s' := if s.text_position.row < s.buffer.num_lines - 1
    then { s with text_position := { s.text_position with row := s.text_position.row + 1 } }
    else s
  (s'.sync_text_position_byte_to_grapheme).map Screen.scroll_into_view

/-- Word class of the regex in Screen::move_next_word: a word character
or one of the fixed punctuation set.  The regex word class is modelled
on the ASCII range (all inputs considered are ASCII). -/
def isWordChar (c : Char) : Bool :=
  c.isAlphanum || c = '_' || c = '(' || c = ')' ||
    c = '\x7b' || c = '\x7d' || c = '-' || c = '+' || c = '&' || c = '='

/-- Byte offset of the first word class character of a string; models
Regex::find returning the match start, an offset into the searched
slice. -/
def regexFindStart : Str → Option Nat
  | [] => none
  | c :: s =>
    if isWordChar c then some 0
    else (regexFindStart s).map (· + c.utf8Size)

/-- Fallback loop of Screen::move_next_word: scans full line texts for
cur_line in [row, num_lines) and on the first match sets the byte to the
match offset and the grapheme from the CURRENT row line; the row is
never updated. -/
def Screen.nw_go (s : Screen) : Nat → Nat → Option Screen
  | 0, _ => some s
  | fuel + 1, cur =>
    match s.buffer.text[cur]? with
    | none => none
    | some lc =>
      match regexFindStart lc.text with
      | none => Screen.nw_go s fuel (cur + 1)
      | some m =>
        match s.buffer.text[s.text_position.row]? with
        | none => none
        | some lr =>
          match lr.text_index_to_grapheme m with
          | none => none
          | some g =>
            some { s with text_position := { row := s.text_position.row, byte := m, grapheme := g } }

/-- Fallback scan entry: fuel num_lines - cur makes nw_go run cur up to
num_lines exactly as the source loop. -/
def Screen.nw_loop (s : Screen) (cur : Nat) : Option Screen :=
  Screen.nw_go s (s.buffer.num_lines - cur) cur

/-- Screen::move_next_word.  The search runs on the suffix slice from
the current byte INCLUSIVE; the match start is an offset into that
slice and is stored into the byte position without rebasing.  When the
suffix has no match, the fallback loop starts at the current row. -/
def Screen.move_next_word (s : Screen) : Option Screen :=
  match s.buffer.text[s.text_position.row]? with
  | none => none
  | some l =>
    match byteSplit s.text_position.byte l.text with
    | none => none
    | some p =>
      match regexFindStart p.2 with
      | some m =>
        match l.text_index_to_grapheme m with
        | none => none
        | some g =>
          some (Screen.scroll_into_view
            { s with text_position := { row := s.text_position.row, byte := m, grapheme := g } })
      | none => (Screen.nw_loop s s.text_position.row).map Screen.scroll_into_view

example : Line.from_string "abcdef".toList =
    { text := "abcdef".toList, grapheme_count := 6
    , grapheme_starts := [0,1,2,3,4,5], grapheme_ends := [0,1,2,3,4,5] } := by
  decide

theorem utf8Len_nil : utf8Len [] = 0 := rfl

theorem utf8Len_append (a b : Str) : utf8Len (a ++ b) = utf8Len a + utf8Len b := by
  simp [utf8Len]

theorem utf8Len_cons (c : Char) (s : Str) : utf8Len (c :: s) = c.utf8Size + utf8Len s := by
  simp [utf8Len]

theorem utf8Len_pos (s : Str) (h : s ≠ []) : 0 < utf8Len s := by
  cases s with
  | nil => exact absurd rfl h
  | cons c t => have := Char.utf8Size_pos c; simp [utf8Len_cons]; omega

theorem wsub_of_le (a b : Nat) (h : b ≤ a) : wsub a b = a - b := by
  simp [wsub, h]

theorem byteSplit_cons (n : Nat) (c : Char) (s : Str) :
    byteSplit n (c :: s) =
      if n = 0 then some ([], c :: s)
      else if c.utf8Size ≤ n then
        (byteSplit (n - c.utf8Size) s).map (fun p => (c :: p.1, p.2))
      else none := by
  cases n with
  | zero => simp [byteSplit]
  | succ m => simp [byteSplit]

theorem byteSplit_append (a b : Str) : byteSplit (utf8Len a) (a ++ b) = some (a, b) := by
  induction a with
  | nil => simp [byteSplit, utf8Len]
  | cons c t ih =>
    have hc := Char.utf8Size_pos c
    rw [List.cons_append, utf8Len_cons, byteSplit_cons]
    rw [if_neg (by omega), if_pos (Nat.le_add_right _ _), Nat.add_sub_cancel_left, ih]
    rfl

theorem byteSplit_eq_some (n : Nat) (s p q : Str) (h : byteSplit n s = some (p, q)) :
    s = p ++ q ∧ utf8Len p = n := by
  induction s generalizing n p q with
  | nil =>
    cases n with
    | zero =>
      simp [byteSplit] at h
      obtain ⟨rfl, rfl⟩ := h
      exact ⟨rfl, rfl⟩
    | succ m => simp [byteSplit] at h
  | cons c t ih =>
    rw [byteSplit_cons] at h
    by_cases h0 : n = 0
    · subst h0
      simp at h
      obtain ⟨rfl, rfl⟩ := h
      exact ⟨rfl, rfl⟩
    · rw [if_neg h0] at h
      by_cases hle : c.utf8Size ≤ n
      · rw [if_pos hle] at h
        cases hsplit : byteSplit (n - c.utf8Size) t with
        | none => rw [hsplit] at h; simp at h
        | some pq =>
          rw [hsplit] at h
          simp at h
          obtain ⟨rfl, rfl⟩ := h
          obtain ⟨hq, hlen⟩ := ih _ _ _ hsplit
          refine ⟨by simp [hq], ?_⟩
          rw [utf8Len_cons, hlen]
          omega
      · rw [if_neg hle] at h; simp at h

theorem byteInsert_at (a b t : Str) :
    byteInsert (a ++ b) (utf8Len a) t = some (a ++ t ++ b) := by
  simp [byteInsert, byteSplit_append]

theorem byteRemove_at (a m b : Str) :
    byteRemove (a ++ m ++ b) (utf8Len a) (utf8Len a + utf8Len m) = some (a ++ b) := by
  rw [byteRemove, if_pos (Nat.le_add_right _ _), List.append_assoc, byteSplit_append]
  simp only [Nat.add_sub_cancel_left]
  rw [byteSplit_append]

theorem byteSlice_at (a m b : Str) :
    byteSlice (a ++ m ++ b) (utf8Len a) (utf8Len a + utf8Len m) = some m := by
  rw [byteSlice, if_pos (Nat.le_add_right _ _), List.append_assoc, byteSplit_append]
  simp only [Nat.add_sub_cancel_left]
  rw [byteSplit_append]

theorem clusterStarts_length (cs : List Str) (acc : Nat) :
    (clusterStarts cs acc).length = cs.length := by
  induction cs generalizing acc with
  | nil => rfl
  | cons c rest ih => simp [clusterStarts, ih]

theorem clusterEnds_length (cs : List Str) (acc : Nat) :
    (clusterEnds cs acc).length = cs.length := by
  induction cs generalizing acc with
  | nil => rfl
  | cons c rest ih => simp [clusterEnds, ih]

theorem clusterStarts_append (xs ys : List Str) (acc : Nat) :
    clusterStarts (xs ++ ys) acc =
      clusterStarts xs acc ++ clusterStarts ys (acc + utf8Len xs.flatten) := by
  induction xs generalizing acc with
  | nil => simp [clusterStarts, utf8Len]
  | cons c rest ih =>
    simp only [List.cons_append, clusterStarts, List.append_eq]
    rw [ih]
    simp only [List.flatten_cons, utf8Len_append, Nat.add_assoc]

theorem clusterEnds_append (xs ys : List Str) (acc : Nat) :
    clusterEnds (xs ++ ys) acc =
      clusterEnds xs acc ++ clusterEnds ys (acc + utf8Len xs.flatten) := by
  induction xs generalizing acc with
  | nil => simp [clusterEnds, utf8Len]
  | cons c rest ih =>
    simp only [List.cons_append, clusterEnds, List.append_eq]
    rw [ih]
    simp only [List.flatten_cons, utf8Len_append, Nat.add_assoc]

theorem clusterStarts_shift (cs : List Str) (acc k : Nat) :
    clusterStarts cs (acc + k) = (clusterStarts cs acc).map (· + k) := by
  induction cs generalizing acc with
  | nil => rfl
  | cons c rest ih =>
    simp only [clusterStarts, List.map_cons]
    rw [Nat.add_right_comm, ih]

theorem clusterEnds_shift (cs : List Str) (acc k : Nat) (hv : ValidC cs) :
    clusterEnds cs (acc + k) = (clusterEnds cs acc).map (· + k) := by
  induction cs generalizing acc with
  | nil => rfl
  | cons c rest ih =>
    have hc : 0 < utf8Len c := utf8Len_pos c (hv c (by simp))
    simp only [clusterEnds, List.map_cons, List.cons.injEq]
    constructor
    · omega
    · rw [Nat.add_right_comm, ih (acc + utf8Len c) (fun x hx => hv x (List.mem_cons_of_mem c hx))]

theorem clusterStarts_getElem? (cs : List Str) (acc i : Nat) :
    (clusterStarts cs acc)[i]? =
      if i < cs.length then some (acc + utf8Len (cs.take i).flatten) else none := by
  induction cs generalizing acc i with
  | nil => simp [clusterStarts]
  | cons c rest ih =>
    cases i with
    | zero => simp [clusterStarts, utf8Len]
    | succ j =>
      rw [show clusterStarts (c :: rest) acc =
        acc :: clusterStarts rest (acc + utf8Len c) from rfl]
      rw [List.getElem?_cons_succ, ih]
      simp only [List.take_succ_cons, List.flatten_cons, utf8Len_append, List.length_cons,
        Nat.add_assoc, Nat.succ_lt_succ_iff]

theorem clusterEnds_getElem? (cs : List Str) (acc i : Nat) :
    (clusterEnds cs acc)[i]? =
      if i < cs.length then some (acc + utf8Len (cs.take (i + 1)).flatten - 1) else none := by
  induction cs generalizing acc i with
  | nil => simp [clusterEnds]
  | cons c rest ih =>
    cases i with
    | zero => simp [clusterEnds, utf8Len_append]
    | succ j =>
      rw [show clusterEnds (c :: rest) acc =
        (acc + utf8Len c - 1) :: clusterEnds rest (acc + utf8Len c) from rfl]
      rw [List.getElem?_cons_succ, ih]
      simp only [List.take_succ_cons, List.flatten_cons, utf8Len_append, List.length_cons,
        Nat.add_assoc, Nat.succ_lt_succ_iff]

theorem clusterStarts_take (cs : List Str) (acc gi : Nat) :
    (clusterStarts cs acc).take gi = clusterStarts (cs.take gi) acc := by
  induction cs generalizing acc gi with
  | nil => simp [clusterStarts]
  | cons c rest ih =>
    cases gi with
    | zero => simp [clusterStarts]
    | succ j => simp [clusterStarts, ih]

theorem clusterEnds_take (cs : List Str) (acc gi : Nat) :
    (clusterEnds cs acc).take gi = clusterEnds (cs.take gi) acc := by
  induction cs generalizing acc gi with
  | nil => simp [clusterEnds]
  | cons c rest ih =>
    cases gi with
    | zero => simp [clusterEnds]
    | succ j => simp [clusterEnds, ih]

theorem clusterStarts_drop (cs : List Str) (acc gi : Nat) :
    (clusterStarts cs acc).drop gi =
      clusterStarts (cs.drop gi) (acc + utf8Len (cs.take gi).flatten) := by
  induction cs generalizing acc gi with
  | nil => simp [clusterStarts]
  | cons c rest ih =>
    cases gi with
    | zero => simp [utf8Len]
    | succ j =>
      rw [show (clusterStarts (c :: rest) acc).drop (j + 1) =
        (clusterStarts rest (acc + utf8Len c)).drop j from rfl]
      rw [ih]
      simp only [List.drop_succ_cons, List.take_succ_cons, List.flatten_cons,
        utf8Len_append, Nat.add_assoc]

theorem clusterEnds_drop (cs : List Str) (acc gi : Nat) :
    (clusterEnds cs acc).drop gi =
      clusterEnds (cs.drop gi) (acc + utf8Len (cs.take gi).flatten) := by
  induction cs generalizing acc gi with
  | nil => simp [clusterEnds]
  | cons c rest ih =>
    cases gi with
    | zero => simp [utf8Len]
    | succ j =>
      rw [show (clusterEnds (c :: rest) acc).drop (j + 1) =
        (clusterEnds rest (acc + utf8Len c)).drop j from rfl]
      rw [ih]
      simp only [List.drop_succ_cons, List.take_succ_cons, List.flatten_cons,
        utf8Len_append, Nat.add_assoc]

theorem getLast?_cons_of_ne_nil {α : Type} (a : α) (l : List α) (h : l ≠ []) :
    (a :: l).getLast? = l.getLast? := by
  cases l with
  | nil => exact absurd rfl h
  | cons b t => exact List.getLast?_cons_cons ..

theorem clusterEnds_ne_nil (cs : List Str) (acc : Nat) (h : cs ≠ []) :
    clusterEnds cs acc ≠ [] := by
  cases cs with
  | nil => exact absurd rfl h
  | cons c rest => simp [clusterEnds]

theorem clusterEnds_getLast? (cs : List Str) (acc : Nat) (h : cs ≠ []) :
    (clusterEnds cs acc).getLast? = some (acc + utf8Len cs.flatten - 1) := by
  induction cs generalizing acc with
  | nil => exact absurd rfl h
  | cons c rest ih =>
    cases rest with
    | nil => simp [clusterEnds, utf8Len]
    | cons d tail =>
      rw [show clusterEnds (c :: d :: tail) acc =
        (acc + utf8Len c - 1) :: clusterEnds (d :: tail) (acc + utf8Len c) from rfl]
      rw [getLast?_cons_of_ne_nil _ _ (clusterEnds_ne_nil _ _ (by simp))]
      rw [ih _ (by simp)]
      congr 1
      simp only [List.flatten_cons, utf8Len_append]
      omega

theorem flatten_take_drop (cs : List Str) (gi : Nat) :
    cs.flatten = (cs.take gi).flatten ++ (cs.drop gi).flatten := by
  conv_lhs => rw [← List.take_append_drop gi cs]
  rw [List.flatten_append]

theorem flatten_ne_nil (cs : List Str) (hv : ValidC cs) (h : cs ≠ []) : cs.flatten ≠ [] := by
  cases cs with
  | nil => exact absurd rfl h
  | cons a t =>
    have ha := hv a (by simp)
    cases a with
    | nil => exact absurd rfl ha
    | cons x xs => simp

theorem insert_char_rep (cs : List Str) (gi : Nat) (c : Char) (hv : ValidC cs) :
    (Line.from_clusters cs).insert_char gi c =
      if gi ≤ cs.length then some (Line.from_clusters (cs.take gi ++ [c] :: cs.drop gi)) else none := by
  by_cases hgt : cs.length < gi
  · rw [if_neg (by omega)]
    rw [Line.insert_char, if_pos (by simp [Line.from_clusters]; omega)]
  · have hle : gi ≤ cs.length := by omega
    rw [if_pos hle]
    by_cases h0 : gi = 0
    · subst h0
      rw [Line.insert_char, if_neg (by simp [Line.from_clusters]), if_pos rfl]
      simp only [Line.from_clusters, List.take_zero, List.drop_zero, List.nil_append,
        Option.some.injEq, Line.mk.injEq]
      refine ⟨rfl, rfl, ?_, ?_⟩
      · rw [show clusterStarts ([c] :: cs) 0 = 0 :: clusterStarts cs (0 + utf8Len [c]) from rfl]
        rw [clusterStarts_shift]
        simp [utf8Len]
      · rw [show clusterEnds ([c] :: cs) 0 = (0 + utf8Len [c] - 1) :: clusterEnds cs (0 + utf8Len [c]) from rfl]
        rw [clusterEnds_shift _ _ _ hv]
        simp [utf8Len]
    · by_cases hend : gi = cs.length
      · subst hend
        have hne : cs ≠ [] := by intro h; rw [h] at h0; exact h0 rfl
        rw [Line.insert_char, if_neg (by simp [Line.from_clusters]), if_neg h0,
          if_pos (by simp [Line.from_clusters])]
        have hlast : (clusterEnds cs 0).getLastD 0 = utf8Len cs.flatten - 1 := by
          rw [List.getLastD_eq_getLast?, clusterEnds_getLast? cs 0 hne]
          simp
        have hpos : 0 < utf8Len cs.flatten := utf8Len_pos _ (flatten_ne_nil cs hv hne)
        have hc : utf8Len [c] = c.utf8Size := by simp [utf8Len]
        simp only [Line.from_clusters, List.take_length, List.drop_length,
          Option.some.injEq, Line.mk.injEq]
        refine ⟨by simp, by simp, ?_, ?_⟩
        · rw [clusterStarts_append]
          rw [show clusterStarts [[c]] (0 + utf8Len cs.flatten) = [0 + utf8Len cs.flatten] from rfl]
          congr 2
          omega
        · rw [clusterEnds_append]
          rw [show clusterEnds [[c]] (0 + utf8Len cs.flatten) =
            [0 + utf8Len cs.flatten + utf8Len [c] - 1] from rfl]
          congr 2
          omega
      · have hlt : gi < cs.length := by omega
        have hs : (Line.from_clusters cs).grapheme_starts[gi]? =
            some (utf8Len (cs.take gi).flatten) := by
          rw [show (Line.from_clusters cs).grapheme_starts = clusterStarts cs 0 from rfl,
            clusterStarts_getElem?, if_pos hlt]
          simp
        have hbi : byteInsert (Line.from_clusters cs).text (utf8Len (cs.take gi).flatten) [c] =
            some ((cs.take gi).flatten ++ [c] ++ (cs.drop gi).flatten) := by
          rw [show (Line.from_clusters cs).text = cs.flatten from rfl,
            flatten_take_drop cs gi, byteInsert_at]
        rw [Line.insert_char, if_neg (by simp [Line.from_clusters]; omega), if_neg h0,
          if_neg (by simp [Line.from_clusters]; omega)]
        simp only [hs, hbi]
        simp only [Line.from_clusters, Option.some.injEq, Line.mk.injEq]
        refine ⟨by simp, by simp; omega, ?_, ?_⟩
        · rw [clusterStarts_append, clusterStarts_take, clusterStarts_drop, ← clusterStarts_shift]
          rw [show clusterStarts ([c] :: cs.drop gi) (0 + utf8Len (cs.take gi).flatten) =
            (0 + utf8Len (cs.take gi).flatten) ::
              clusterStarts (cs.drop gi) (0 + utf8Len (cs.take gi).flatten + utf8Len [c]) from rfl]
          simp [utf8Len]
        · rw [clusterEnds_append, clusterEnds_take, clusterEnds_drop,
            ← clusterEnds_shift _ _ _ (fun x hx => hv x (List.mem_of_mem_drop hx))]
          rw [show clusterEnds ([c] :: cs.drop gi) (0 + utf8Len (cs.take gi).flatten) =
            (0 + utf8Len (cs.take gi).flatten + utf8Len [c] - 1) ::
              clusterEnds (cs.drop gi) (0 + utf8Len (cs.take gi).flatten + utf8Len [c]) from rfl]
          simp [utf8Len]

theorem wsub_add_cancel (k x : Nat) : wsub (x + k) k = x := by
  rw [wsub_of_le _ _ (Nat.le_add_left k x)]; omega

theorem map_wsub_clusterStarts (ds : List Str) (acc k : Nat) :
    (clusterStarts ds (acc + k)).map (fun x => wsub x k) = clusterStarts ds acc := by
  rw [clusterStarts_shift, List.map_map]
  have h : ((fun x => wsub x k) ∘ fun x => x + k) = id := funext fun x => wsub_add_cancel k x
  rw [h, List.map_id]

theorem map_wsub_clusterEnds (ds : List Str) (acc k : Nat) (hv : ValidC ds) :
    (clusterEnds ds (acc + k)).map (fun x => wsub x k) = clusterEnds ds acc := by
  rw [clusterEnds_shift _ _ _ hv, List.map_map]
  have h : ((fun x => wsub x k) ∘ fun x => x + k) = id := funext fun x => wsub_add_cancel k x
  rw [h, List.map_id]

theorem eraseIdx_append_length {α : Type} (A : List α) (x : α) (B : List α) :
    (A ++ x :: B).eraseIdx A.length = A ++ B := by
  induction A with
  | nil => simp [List.eraseIdx]
  | cons a t ih => simp [List.eraseIdx, ih]

theorem delete_grapheme_rep (cs : List Str) (gi : Nat) (hv : ValidC cs) :
    (Line.from_clusters cs).delete_grapheme gi =
      some (if gi < cs.length then Line.from_clusters (cs.eraseIdx gi)
        else Line.from_clusters cs) := by
  by_cases hlt : gi < cs.length
  · rw [if_pos hlt]
    have hL : 0 < utf8Len cs[gi] :=
      utf8Len_pos _ (hv cs[gi] (List.getElem_mem hlt))
    have htake1 : cs.take (gi + 1) = cs.take gi ++ [cs[gi]] := by
      rw [List.take_succ, List.getElem?_eq_getElem hlt]; rfl
    have hB : utf8Len (cs.take (gi + 1)).flatten =
        utf8Len (cs.take gi).flatten + utf8Len cs[gi] := by
      rw [htake1, List.flatten_append]
      simp [utf8Len_append]
    have hdropgi : cs.drop gi = cs[gi] :: cs.drop (gi + 1) := List.drop_eq_getElem_cons hlt
    have hs : (Line.from_clusters cs).grapheme_starts[gi]? =
        some (utf8Len (cs.take gi).flatten) := by
      rw [show (Line.from_clusters cs).grapheme_starts = clusterStarts cs 0 from rfl,
        clusterStarts_getElem?, if_pos hlt]
      simp
    have he : (Line.from_clusters cs).grapheme_ends[gi]? =
        some (utf8Len (cs.take (gi + 1)).flatten - 1) := by
      rw [show (Line.from_clusters cs).grapheme_ends = clusterEnds cs 0 from rfl,
        clusterEnds_getElem?, if_pos hlt]
      simp
    have htext : (Line.from_clusters cs).text =
        (cs.take gi).flatten ++ cs[gi] ++ (cs.drop (gi + 1)).flatten := by
      rw [show (Line.from_clusters cs).text = cs.flatten from rfl,
        flatten_take_drop cs gi, hdropgi]
      simp only [List.flatten_cons, List.append_assoc]
    have hrm : byteRemove (Line.from_clusters cs).text (utf8Len (cs.take gi).flatten)
        ((utf8Len (cs.take (gi + 1)).flatten - 1) + 1) =
        some ((cs.take gi).flatten ++ (cs.drop (gi + 1)).flatten) := by
      rw [htext, show (utf8Len (cs.take (gi + 1)).flatten - 1) + 1 =
        utf8Len (cs.take gi).flatten + utf8Len cs[gi] by omega]
      exact byteRemove_at _ _ _
    have hlen : (clusterStarts (cs.take gi) 0).length = gi := by
      rw [clusterStarts_length, List.length_take]
      omega
    have hlenE : (clusterEnds (cs.take gi) 0).length = gi := by
      rw [clusterEnds_length, List.length_take]
      omega
    rw [Line.delete_grapheme, if_neg (by simp [Line.from_clusters]; omega)]
    simp only [hs, he, hrm]
    simp only [Line.from_clusters, Option.some.injEq, Line.mk.injEq]
    have hglen : utf8Len (cs.take (gi + 1)).flatten - 1 - utf8Len (cs.take gi).flatten + 1 =
        utf8Len cs[gi] := by omega
    refine ⟨?_, ?_, ?_, ?_⟩
    · rw [List.eraseIdx_eq_take_drop_succ, List.flatten_append]
    · rw [List.length_eraseIdx]; simp [hlt]
    · rw [hglen, clusterStarts_take, clusterStarts_drop, hdropgi]
      rw [show clusterStarts (cs[gi] :: cs.drop (gi + 1)) (0 + utf8Len (cs.take gi).flatten) =
        (0 + utf8Len (cs.take gi).flatten) ::
          clusterStarts (cs.drop (gi + 1))
            (0 + utf8Len (cs.take gi).flatten + utf8Len cs[gi]) from rfl]
      rw [List.map_cons, map_wsub_clusterStarts]
      have herase := eraseIdx_append_length (clusterStarts (cs.take gi) 0)
        (wsub (0 + utf8Len (cs.take gi).flatten) (utf8Len cs[gi]))
        (clusterStarts (cs.drop (gi + 1)) (0 + utf8Len (cs.take gi).flatten))
      rw [hlen] at herase
      rw [herase, List.eraseIdx_eq_take_drop_succ, clusterStarts_append]
    · rw [hglen, clusterEnds_take, clusterEnds_drop, hdropgi]
      rw [show clusterEnds (cs[gi] :: cs.drop (gi + 1)) (0 + utf8Len (cs.take gi).flatten) =
        (0 + utf8Len (cs.take gi).flatten + utf8Len cs[gi] - 1) ::
          clusterEnds (cs.drop (gi + 1))
            (0 + utf8Len (cs.take gi).flatten + utf8Len cs[gi]) from rfl]
      rw [List.map_cons,
        map_wsub_clusterEnds _ _ _ (fun x hx => hv x (List.mem_of_mem_drop hx))]
      have herase := eraseIdx_append_length (clusterEnds (cs.take gi) 0)
        (wsub (0 + utf8Len (cs.take gi).flatten + utf8Len cs[gi] - 1) (utf8Len cs[gi]))
        (clusterEnds (cs.drop (gi + 1)) (0 + utf8Len (cs.take gi).flatten))
      rw [hlenE] at herase
      rw [herase, List.eraseIdx_eq_take_drop_succ, clusterEnds_append]
  · rw [if_neg hlt, Line.delete_grapheme, if_pos (by simp [Line.from_clusters]; omega)]

theorem insert_str_body_rep (X ds : List Str) (gi : Nat) (hvX : ValidC X) (hd : ValidC ds) :
    Line.insert_str_body (Line.from_clusters X) gi ds =
      if gi < X.length then some (Line.from_clusters (X.take gi ++ ds ++ X.drop gi))
      else none := by
  by_cases hlt : gi < X.length
  · rw [if_pos hlt]
    have hs : (Line.from_clusters X).grapheme_starts[gi]? =
        some (utf8Len (X.take gi).flatten) := by
      rw [show (Line.from_clusters X).grapheme_starts = clusterStarts X 0 from rfl,
        clusterStarts_getElem?, if_pos hlt]
      simp
    have hbi : byteInsert (Line.from_clusters X).text (utf8Len (X.take gi).flatten) ds.flatten =
        some ((X.take gi).flatten ++ ds.flatten ++ (X.drop gi).flatten) := by
      rw [show (Line.from_clusters X).text = X.flatten from rfl, flatten_take_drop X gi,
        byteInsert_at]
    have hilen : (match (Line.from_clusters ds).grapheme_ends.getLast? with
        | none => 0
        | some v => v + 1) = utf8Len ds.flatten := by
      cases hds : ds with
      | nil => simp [Line.from_clusters, clusterEnds, utf8Len]
      | cons d tail =>
        rw [show (Line.from_clusters (d :: tail)).grapheme_ends =
          clusterEnds (d :: tail) 0 from rfl, clusterEnds_getLast? _ _ (by simp)]
        have hp : 0 < utf8Len (d :: tail).flatten := by
          refine utf8Len_pos _ (flatten_ne_nil _ ?_ (by simp))
          rw [← hds]; exact hd
        change 0 + utf8Len (d :: tail).flatten - 1 + 1 = _
        omega
    rw [Line.insert_str_body]
    simp only [hs, hbi, hilen]
    simp only [Line.from_clusters, Option.some.injEq, Line.mk.injEq]
    refine ⟨by simp, by simp; omega, ?_, ?_⟩
    · rw [clusterStarts_take, clusterStarts_drop, ← clusterStarts_shift, ← clusterStarts_shift]
      rw [List.append_assoc, clusterStarts_append, clusterStarts_append]
      simp [utf8Len_append, Nat.add_comm, Nat.add_assoc, Nat.add_left_comm]
    · rw [clusterEnds_take, clusterEnds_drop,
        ← clusterEnds_shift _ _ _ hd,
        ← clusterEnds_shift _ _ _ (fun x hx => hvX x (List.mem_of_mem_drop hx))]
      rw [List.append_assoc, clusterEnds_append, clusterEnds_append]
      simp [utf8Len_append, Nat.add_comm, Nat.add_assoc, Nat.add_left_comm]
  · rw [if_neg hlt, Line.insert_str_body]
    rw [show (Line.from_clusters X).grapheme_starts = clusterStarts X 0 from rfl,
      clusterStarts_getElem?, if_neg hlt]

theorem insert_str_rep (cs ds : List Str) (gi : Nat) (hv : ValidC cs) (hd : ValidC ds)
    (hne : cs ≠ []) :
    (Line.from_clusters cs).insert_str gi ds =
      if gi < cs.length then some (Line.from_clusters (cs.take gi ++ ds ++ cs.drop gi))
      else none := by
  rw [Line.insert_str, if_neg (by
    show ¬ cs.length = 0
    simpa using fun h => hne (List.length_eq_zero.mp h))]
  exact insert_str_body_rep cs ds gi hv hd

theorem insert_str_rep_nil (ds : List Str) (gi : Nat) (hd : ValidC ds) :
    (Line.from_clusters []).insert_str gi ds =
      if gi < ds.length then some (Line.from_clusters (ds.take gi ++ ds ++ ds.drop gi))
      else none := by
  have h0 : (Line.from_clusters []).grapheme_count = 0 := rfl
  rw [Line.insert_str, if_pos h0]
  exact insert_str_body_rep ds ds gi hd hd

theorem chain'_clusterStarts (cs : List Str) (acc : Nat) (hv : ValidC cs) :
    (clusterStarts cs acc).Chain' (· < ·) := by
  induction cs generalizing acc with
  | nil => exact List.chain'_nil
  | cons c rest ih =>
    refine List.chain'_cons'.mpr ⟨?_, ih _ (fun x hx => hv x (List.mem_cons_of_mem c hx))⟩
    intro y hy
    have hc : 0 < utf8Len c := utf8Len_pos c (hv c (by simp))
    cases rest with
    | nil => simp [clusterStarts] at hy
    | cons d tail =>
      rw [show clusterStarts (d :: tail) (acc + utf8Len c) =
        (acc + utf8Len c) :: clusterStarts tail (acc + utf8Len c + utf8Len d) from rfl] at hy
      simp at hy
      omega

theorem chain'_clusterEnds (cs : List Str) (acc : Nat) (hv : ValidC cs) :
    (clusterEnds cs acc).Chain' (· < ·) := by
  induction cs generalizing acc with
  | nil => exact List.chain'_nil
  | cons c rest ih =>
    refine List.chain'_cons'.mpr ⟨?_, ih _ (fun x hx => hv x (List.mem_cons_of_mem c hx))⟩
    intro y hy
    have hc : 0 < utf8Len c := utf8Len_pos c (hv c (by simp))
    cases rest with
    | nil => simp [clusterEnds] at hy
    | cons d tail =>
      have hd : 0 < utf8Len d := utf8Len_pos d (hv d (by simp))
      rw [show clusterEnds (d :: tail) (acc + utf8Len c) =
        (acc + utf8Len c + utf8Len d - 1) :: clusterEnds tail (acc + utf8Len c + utf8Len d)
        from rfl] at hy
      simp at hy
      omega

theorem take_flatten_lt (cs : List Str) (i : Nat) (hv : ValidC cs) (h : i < cs.length) :
    utf8Len (cs.take i).flatten < utf8Len (cs.take (i + 1)).flatten := by
  have htake1 : cs.take (i + 1) = cs.take i ++ [cs[i]] := by
    rw [List.take_succ, List.getElem?_eq_getElem h]; rfl
  have hL : 0 < utf8Len cs[i] := utf8Len_pos _ (hv cs[i] (List.getElem_mem h))
  rw [htake1, List.flatten_append, utf8Len_append]
  have hone : ([cs[i]] : List Str).flatten = cs[i] := by simp
  rw [hone]
  omega

theorem from_clusters_wf (cs : List Str) (hv : ValidC cs) : LineWF (Line.from_clusters cs) := by
  have hcnt : (Line.from_clusters cs).grapheme_count = cs.length := rfl
  have hsl := clusterStarts_length cs 0
  have hel := clusterEnds_length cs 0
  have hsget : ∀ i, i < cs.length →
      (clusterStarts cs 0).getD i 0 = utf8Len (cs.take i).flatten := by
    intro i h
    rw [List.getD_eq_getElem?_getD, clusterStarts_getElem?, if_pos h]
    simp
  have heget : ∀ i, i < cs.length →
      (clusterEnds cs 0).getD i 0 = utf8Len (cs.take (i + 1)).flatten - 1 := by
    intro i h
    rw [List.getD_eq_getElem?_getD, clusterEnds_getElem?, if_pos h]
    simp
  refine ⟨hsl, hel, chain'_clusterStarts cs 0 hv, chain'_clusterEnds cs 0 hv, ?_, ?_, ?_, ?_, ?_⟩
  · show cs.length = 0 ↔ cs.flatten = []
    constructor
    · intro h; rw [List.length_eq_zero.mp h]; rfl
    · intro h
      by_cases hcs : cs = []
      · rw [hcs]; rfl
      · exact absurd h (flatten_ne_nil cs hv hcs)
  · intro h
    rw [hcnt] at h
    show (clusterStarts cs 0).getD 0 0 = 0
    rw [hsget 0 (by omega)]
    rfl
  · intro i h
    rw [hcnt] at h
    show (clusterStarts cs 0).getD i 0 ≤ (clusterEnds cs 0).getD i 0
    rw [hsget i h, heget i h]
    have := take_flatten_lt cs i hv h
    omega
  · intro i h
    rw [hcnt] at h
    show (clusterEnds cs 0).getD i 0 + 1 = (clusterStarts cs 0).getD (i + 1) 0
    rw [hsget (i + 1) (by omega), heget i (by omega)]
    have := take_flatten_lt cs i hv (by omega)
    omega
  · intro h
    rw [hcnt] at h
    show (clusterEnds cs 0).getD (cs.length - 1) 0 + 1 = utf8Len cs.flatten
    rw [heget (cs.length - 1) (by omega)]
    have h1 : cs.length - 1 + 1 = cs.length := by omega
    rw [h1, List.take_length]
    have := take_flatten_lt cs (cs.length - 1) hv (by omega)
    rw [h1, List.take_length] at this
    omega

theorem validC_append (a b : List Str) (ha : ValidC a) (hb : ValidC b) : ValidC (a ++ b) := by
  intro c hc
  rcases List.mem_append.mp hc with h | h
  · exact ha c h
  · exact hb c h

theorem validC_take (cs : List Str) (gi : Nat) (hv : ValidC cs) : ValidC (cs.take gi) :=
  fun c hc => hv c (List.mem_of_mem_take hc)

theorem validC_drop (cs : List Str) (gi : Nat) (hv : ValidC cs) : ValidC (cs.drop gi) :=
  fun c hc => hv c (List.mem_of_mem_drop hc)

theorem validC_eraseIdx (cs : List Str) (gi : Nat) (hv : ValidC cs) : ValidC (cs.eraseIdx gi) := by
  rw [List.eraseIdx_eq_take_drop_succ]
  exact validC_append _ _ (validC_take cs gi hv) (validC_drop cs (gi + 1) hv)

theorem applyOps_rep (ops : List LineOp) (cs : List Str) (l' : Line) (hv : ValidC cs)
    (hops : ∀ op ∈ ops, op.ValidOp)
    (h : applyOps (Line.from_clusters cs) ops = some l') :
    ∃ cs2, ValidC cs2 ∧ l' = Line.from_clusters cs2 := by
  induction ops generalizing cs with
  | nil =>
    rw [applyOps] at h
    exact ⟨cs, hv, (Option.some.injEq _ _ ▸ h).symm⟩
  | cons op ops ih =>
    rw [applyOps] at h
    cases op with
    | ins_char gi c =>
      rw [show LineOp.apply (Line.from_clusters cs) (LineOp.ins_char gi c) =
        (Line.from_clusters cs).insert_char gi c from rfl, insert_char_rep cs gi c hv] at h
      by_cases hle : gi ≤ cs.length
      · rw [if_pos hle] at h
        refine ih (cs.take gi ++ [c] :: cs.drop gi) ?_ (fun op hop => hops op (by simp [hop])) h
        refine validC_append _ _ (validC_take cs gi hv) ?_
        intro x hx
        rcases List.mem_cons.mp hx with h1 | h1
        · rw [h1]; simp
        · exact validC_drop cs gi hv x h1
      · rw [if_neg hle] at h; exact absurd h (by simp)
    | ins_str gi ds =>
      have hd : ValidC ds := hops (LineOp.ins_str gi ds) (by simp)
      rw [show LineOp.apply (Line.from_clusters cs) (LineOp.ins_str gi ds) =
        (Line.from_clusters cs).insert_str gi ds from rfl] at h
      by_cases hcs : cs = []
      · subst hcs
        rw [insert_str_rep_nil ds gi hd] at h
        by_cases hlt : gi < ds.length
        · rw [if_pos hlt] at h
          refine ih (ds.take gi ++ ds ++ ds.drop gi) ?_ (fun op hop => hops op (by simp [hop])) h
          exact validC_append _ _ (validC_append _ _ (validC_take ds gi hd) hd)
            (validC_drop ds gi hd)
        · rw [if_neg hlt] at h; exact absurd h (by simp)
      · rw [insert_str_rep cs ds gi hv hd hcs] at h
        by_cases hlt : gi < cs.length
        · rw [if_pos hlt] at h
          refine ih (cs.take gi ++ ds ++ cs.drop gi) ?_ (fun op hop => hops op (by simp [hop])) h
          exact validC_append _ _ (validC_append _ _ (validC_take cs gi hv) hd)
            (validC_drop cs gi hv)
        · rw [if_neg hlt] at h; exact absurd h (by simp)
    | del gi =>
      rw [show LineOp.apply (Line.from_clusters cs) (LineOp.del gi) =
        (Line.from_clusters cs).delete_grapheme gi from rfl, delete_grapheme_rep cs gi hv] at h
      by_cases hlt : gi < cs.length
      · rw [if_pos hlt] at h
        exact ih (cs.eraseIdx gi) (validC_eraseIdx cs gi hv)
          (fun op hop => hops op (by simp [hop])) h
      · rw [if_neg hlt] at h
        exact ih cs hv (fun op hop => hops op (by simp [hop])) h

theorem validC_segment (s : Str) : ValidC (segmentChars s) := by
  intro c hc
  rw [segmentChars] at hc
  obtain ⟨x, _, rfl⟩ := List.mem_map.mp hc
  simp

theorem findNlSplit_of_not_mem (s : Str) (h : ('\n' : Char) ∉ s) : findNlSplit s = none := by
  induction s with
  | nil => rfl
  | cons c t ih =>
    rw [findNlSplit, if_neg (by intro hc; exact h (by rw [hc]; simp)),
      ih (fun hm => h (by simp [hm]))]
    rfl

theorem findNlSplit_some (s p q : Str) (h : findNlSplit s = some (p, q)) :
    s = p ++ q ∧ ('\n' : Char) ∉ p ∧ ∃ t, q = '\n' :: t := by
  induction s generalizing p q with
  | nil => simp [findNlSplit] at h
  | cons c t ih =>
    rw [findNlSplit] at h
    by_cases hc : c = '\n'
    · rw [if_pos hc] at h
      simp at h
      obtain ⟨rfl, rfl⟩ := h
      exact ⟨rfl, by simp, t, by rw [hc]⟩
    · rw [if_neg hc] at h
      cases hsp : findNlSplit t with
      | none => rw [hsp] at h; simp at h
      | some pq =>
        rw [hsp] at h
        simp at h
        obtain ⟨rfl, rfl⟩ := h
        obtain ⟨h1, h2, h3⟩ := ih _ _ hsp
        refine ⟨by simp [← h1], ?_, h3⟩
        intro hm
        rcases List.mem_cons.mp hm with hm | hm
        · exact hc hm.symm
        · exact h2 hm

theorem delete_first_from_string (c : Char) (q : Str) :
    (Line.from_string (c :: q)).delete_grapheme 0 = some (Line.from_string q) := by
  rw [Line.from_string, show segmentChars (c :: q) = [c] :: segmentChars q from rfl,
    delete_grapheme_rep ([c] :: segmentChars q) 0 (by
      intro x hx
      rcases List.mem_cons.mp hx with h | h
      · rw [h]; simp
      · exact validC_segment q x h)]
  rw [if_pos (by simp)]
  rfl

theorem vecInsert_some (ls : List Line) (i : Nat) (a : Line) (ls' : List Line)
    (h : vecInsert ls i a = some ls') :
    i ≤ ls.length ∧ ls' = ls.take i ++ a :: ls.drop i := by
  rw [vecInsert] at h
  by_cases hle : i ≤ ls.length
  · rw [if_pos hle] at h
    simp at h
    exact ⟨hle, h.symm⟩
  · rw [if_neg hle] at h; simp at h

theorem vecInsert_getElem?_lt (ls : List Line) (i : Nat) (a : Line) (ls' : List Line)
    (h : vecInsert ls i a = some ls') (j : Nat) (hj : j < i) : ls'[j]? = ls[j]? := by
  obtain ⟨hle, rfl⟩ := vecInsert_some ls i a _ h
  rw [List.getElem?_append, List.length_take]
  rw [if_pos (by omega), List.getElem?_take, if_pos hj]

theorem not_mem_of_findNlSplit_none (s : Str) (h : findNlSplit s = none) :
    ('\n' : Char) ∉ s := by
  induction s with
  | nil => simp
  | cons c t ih =>
    rw [findNlSplit] at h
    by_cases hc : c = '\n'
    · rw [if_pos hc] at h; simp at h
    · rw [if_neg hc] at h
      cases hsp : findNlSplit t with
      | none =>
        intro hm
        rcases List.mem_cons.mp hm with hm | hm
        · exact hc hm.symm
        · exact ih hsp hm
      | some pq => rw [hsp] at h; simp at h

theorem fix_loop_clean (fuel : Nat) :
    ∀ (ls : List Line) (n idx : Nat) (ls' : List Line) (n' : Nat),
      Buffer.fix_loop fuel ls n idx = some (ls', n') →
      (∀ j, j < idx → ∀ l, ls[j]? = some l → ('\n' : Char) ∉ l.text) →
      n = ls.length →
      (∀ l ∈ ls', ('\n' : Char) ∉ l.text) ∧ n' = ls'.length := by
  induction fuel with
  | zero =>
    intro ls n idx ls' n' h
    rw [Buffer.fix_loop] at h
    simp at h
  | succ fuel ih =>
    intro ls n idx ls' n' h hinv hn
    rw [Buffer.fix_loop] at h
    by_cases hend : idx ≥ ls.length
    · rw [if_pos hend] at h
      simp at h
      obtain ⟨rfl, rfl⟩ := h
      refine ⟨?_, hn⟩
      intro l hl
      obtain ⟨j, hj⟩ := List.get?_of_mem hl
      rw [List.get?_eq_getElem?] at hj
      have hjl : j < ls.length := (List.getElem?_eq_some.mp hj).1
      exact hinv j (by omega) l hj
    · rw [if_neg hend] at h
      have hidx : idx < ls.length := by omega
      have hl : ls[idx]? = some ls[idx] := List.getElem?_eq_getElem hidx
      simp only [hl] at h
      cases hfind : findNlSplit ls[idx].text with
      | none =>
        simp only [hfind] at h
        refine ih ls n (idx + 1) ls' n' h ?_ hn
        intro j hj l hjl
        by_cases hji : j < idx
        · exact hinv j hji l hjl
        · have hji2 : j = idx := by omega
          rw [hji2, hl] at hjl
          have hleq : ls[idx] = l := by injection hjl
          rw [← hleq]
          exact not_mem_of_findNlSplit_none _ hfind
      | some pq =>
        simp only [hfind] at h
        obtain ⟨hsplit, hpre, t, ht⟩ := findNlSplit_some _ _ _ hfind
        rw [ht] at h
        simp only [delete_first_from_string] at h
        cases hvi : vecInsert (ls.set idx { ls[idx] with text := pq.1 }) (idx + 1)
            (Line.from_string t) with
        | none => simp only [hvi] at h; exact Option.noConfusion h
        | some ls2 =>
          simp only [hvi] at h
          obtain ⟨hle2, hls2⟩ := vecInsert_some _ _ _ _ hvi
          refine ih ls2 (n + 1) (idx + 1) ls' n' h ?_ ?_
          · intro j hj l hjl
            rw [vecInsert_getElem?_lt _ _ _ _ hvi j hj] at hjl
            by_cases hji : j < idx
            · rw [List.getElem?_set_ne (by omega)] at hjl
              exact hinv j hji l hjl
            · have hji2 : j = idx := by omega
              rw [hji2, List.getElem?_set_self', hl] at hjl
              simp at hjl
              rw [← hjl]
              exact hpre
          · rw [hls2]
            simp [List.length_set]
            omega

theorem fix_loop_noop (fuel : Nat) :
    ∀ (ls : List Line) (n idx : Nat),
      (∀ l ∈ ls, ('\n' : Char) ∉ l.text) →
      ls.length - idx < fuel →
      Buffer.fix_loop fuel ls n idx = some (ls, n) := by
  induction fuel with
  | zero => intro ls n idx h hf; omega
  | succ fuel ih =>
    intro ls n idx h hf
    rw [Buffer.fix_loop]
    by_cases hend : idx ≥ ls.length
    · rw [if_pos hend]
    · rw [if_neg hend]
      have hidx : idx < ls.length := by omega
      simp only [List.getElem?_eq_getElem hidx]
      simp only [findNlSplit_of_not_mem _ (h ls[idx] (List.getElem_mem hidx))]
      exact ih ls n (idx + 1) h (by omega)

theorem fix_newlines_noop (b : Buffer) (h : ∀ l ∈ b.text, ('\n' : Char) ∉ l.text) :
    b.fix_newlines = some b := by
  rw [Buffer.fix_newlines]
  by_cases h0 : b.text.length = 0
  · rw [if_pos h0]
  · rw [if_neg h0]
    rw [fix_loop_noop (totalNl b.text + b.text.length + 1) b.text b.num_lines 0 h (by omega)]

theorem mem_of_getElem?' {α : Type} (l : List α) (i : Nat) (a : α) (h : l[i]? = some a) :
    a ∈ l := by
  obtain ⟨h1, rfl⟩ := List.getElem?_eq_some.mp h
  exact List.getElem_mem h1

theorem from_clusters_grapheme_start (cs : List Str) (gi : Nat) (h : gi < cs.length) :
    (Line.from_clusters cs).grapheme_start gi = some (utf8Len (cs.take gi).flatten) := by
  rw [Line.grapheme_start,
    if_neg (show ¬ (Line.from_clusters cs).grapheme_count = 0 from by
      show ¬ cs.length = 0; omega),
    if_neg (show ¬ gi ≥ (Line.from_clusters cs).grapheme_count from by
      show ¬ gi ≥ cs.length; omega)]
  rw [show (Line.from_clusters cs).grapheme_starts = clusterStarts cs 0 from rfl,
    clusterStarts_getElem?, if_pos h]
  simp

theorem from_clusters_grapheme_end (cs : List Str) (gi : Nat) (h : gi < cs.length) :
    (Line.from_clusters cs).grapheme_end gi =
      some (utf8Len (cs.take (gi + 1)).flatten - 1) := by
  rw [Line.grapheme_end,
    if_neg (show ¬ (Line.from_clusters cs).grapheme_count = 0 from by
      show ¬ cs.length = 0; omega)]
  rw [show (Line.from_clusters cs).grapheme_ends = clusterEnds cs 0 from rfl,
    clusterEnds_getElem?, if_pos h]
  simp

/-- C1: on the buffer with lines abc and def, new_line(0, 1) produces
the lines bc, a, def with num_lines 3: the split suffix is inserted at
index line, BEFORE the truncated target line, not after it as the spec
example requires (the spec example expects a, bc, def). -/
theorem new_line_inserts_suffix_before_target :
    (Buffer.new_line
        { text := [Line.from_string "abc".toList, Line.from_string "def".toList], num_lines := 2 }
        0 1).map (fun b => (b.text.map Line.text, b.num_lines)) =
      some (["bc".toList, "a".toList, "def".toList], 3) := by
  decide

/-- C2 counterexample: with view height 10 (screen height 12, bottom
inset 2), cursor row 15 and scroll offset 0, scroll_into_view sets the
offset to 15 - 0 - 10 = 5, and row 15 is NOT inside the half open
window [5, 5 + 10). -/
theorem scroll_into_view_row_15_not_inside_window :
    (Screen.scroll_into_view
        { buffer := { text := [], num_lines := 0 }
        , screen_location := { row := 0, col := 0 }
        , text_position := { row := 15, byte := 0, grapheme := 0 }
        , scroll_offset := { row := 0, col := 0 }
        , inner_boundary := Boundary.default
        , size := { height := 12, width := 84 } }).scroll_offset.row = 5 ∧
      ¬ (5 ≤ 15 ∧ 15 < 5 + 10) := by
  decide

/-- C2 amended: the offset is only changed when the cursor is outside
the CLOSED window [offset, offset + extent]; a cursor inside that
closed window leaves the offset unchanged; when the old offset is 0 and
the cursor is past the extent, the new offset is cursor - extent, which
places the cursor exactly AT offset + extent, the closed window edge,
one past the claimed half open window; both scroll_vertical and
scroll_horizontal apply this same update. -/
theorem scroll_offset_update_amended :
    (∀ pos off ext : Nat, scrollOffsetUpdate pos off ext ≠ off → (ext + off < pos ∨ pos < off)) ∧
    (∀ pos off ext : Nat, off ≤ pos → pos ≤ off + ext → scrollOffsetUpdate pos off ext = off) ∧
    (∀ pos ext : Nat, ext < pos →
      scrollOffsetUpdate pos 0 ext = pos - ext ∧ pos = (pos - ext) + ext) ∧
    (∀ s : Screen, (s.scroll_vertical).scroll_offset.row =
        scrollOffsetUpdate s.text_position.row s.scroll_offset.row s.view_height ∧
      (s.scroll_horizontal).scroll_offset.col =
        scrollOffsetUpdate s.text_position.grapheme s.scroll_offset.col s.view_width) := by
  refine ⟨?_, ?_, ?_, ?_⟩
  · intro pos off ext h
    rw [scrollOffsetUpdate] at h
    by_cases h1 : pos - off > ext
    · left; omega
    · rw [if_neg h1] at h
      by_cases h2 : pos < off
      · right; exact h2
      · rw [if_neg h2] at h; exact absurd rfl h
  · intro pos off ext h1 h2
    rw [scrollOffsetUpdate, if_neg (by omega), if_neg (by omega)]
  · intro pos ext h
    rw [scrollOffsetUpdate, if_pos (by omega)]
    omega
  · intro s
    exact ⟨rfl, rfl⟩

/-- C2 amended witness at the example numbers: cursor row 15, offset 0,
view height 10. -/
theorem scroll_offset_update_amended_witness :
    scrollOffsetUpdate 15 0 10 = 15 - 10 ∧ 15 = (15 - 10) + 10 :=
  scroll_offset_update_amended.2.2.1 15 10 (by decide)

/-- C3: on the buffer with lines abc and def, copying from row 0
grapheme 0 to row 1 grapheme 1 yields the string abc, newline, ab: the
final prefix slice is taken from the START row (the source indexes
start_position.row on the last push), where the claim requires the end
row prefix de, hence abc, newline, de. -/
theorem copy_text_end_prefix_from_start_row :
    Buffer.copy_text
        { text := [Line.from_string "abc".toList, Line.from_string "def".toList], num_lines := 2 }
        { row := 0, byte := 0, grapheme := 0 } { row := 1, byte := 0, grapheme := 1 } =
      some "abc\nab".toList := by
  decide

/-- C7: move_down panics (none) on an empty buffer, because the byte
resync indexes text[row] unconditionally; and moving down onto an empty
line sets the cursor grapheme to 2^64 - 1, because the clamp computes
grapheme_count - 1 with bare usize subtraction (wrap in release, abort
in debug), instead of clamping to a last grapheme. -/
theorem move_down_empty_cases_violate_clamping :
    (Screen.move_down
        { buffer := { text := [], num_lines := 0 }
        , screen_location := { row := 0, col := 0 }
        , text_position := { row := 0, byte := 0, grapheme := 0 }
        , scroll_offset := { row := 0, col := 0 }
        , inner_boundary := Boundary.default
        , size := { height := 24, width := 80 } } = none) ∧
    ((Screen.move_down
        { buffer := { text := [Line.from_string "a".toList, Line.from_string []], num_lines := 2 }
        , screen_location := { row := 0, col := 0 }
        , text_position := { row := 0, byte := 0, grapheme := 0 }
        , scroll_offset := { row := 0, col := 0 }
        , inner_boundary := Boundary.default
        , size := { height := 24, width := 80 } }).map
      (fun s => (s.text_position.row, s.text_position.grapheme)) = some (1, 2 ^ 64 - 1)) := by
  decide

/-- C8 counterexample: on the one grapheme line a, grapheme_end 1
reads the ends table out of bounds and panics (none) instead of
returning the last valid entry 0; next_grapheme_start at index
count - 1 reads entry count and panics; prev_grapheme_start at index
count + 1 reads entry count and panics; and for a text index past the
byte length, text_index_to_grapheme_range returns the FIRST grapheme
boundary pair (0, 0) on ab, not the last entry (1, 2). -/
theorem grapheme_end_out_of_range_panics :
    (Line.from_string "a".toList).grapheme_end 1 = none ∧
    (Line.from_string "ab".toList).next_grapheme_start 1 = none ∧
    (Line.from_string "a".toList).prev_grapheme_start 2 = none ∧
    (Line.from_string "ab".toList).text_index_to_grapheme_range 5 = some (0, 0) ∧
    ((0, 0) : Nat × Nat) ≠ (1, 2) := by
  decide

/-- C10: on the line abcdef with the cursor at byte 2 grapheme 2, the
word search runs on the suffix cdef from the current byte INCLUSIVE and
stores the un-rebased match offset 0, so the cursor jumps BACK to byte
0 grapheme 0; the claim requires the first match strictly after byte 2,
which is byte 3 grapheme 3. -/
theorem move_next_word_moves_backward :
    (Screen.move_next_word
        { buffer := { text := [Line.from_string "abcdef".toList], num_lines := 1 }
        , screen_location := { row := 0, col := 0 }
        , text_position := { row := 0, byte := 2, grapheme := 2 }
        , scroll_offset := { row := 0, col := 0 }
        , inner_boundary := Boundary.default
        , size := { height := 24, width := 80 } }).map
      (fun s => (s.text_position.row, s.text_position.byte, s.text_position.grapheme)) =
      some (0, 0, 0) := by
  decide

/-- C6: inserting a character at a valid grapheme index and deleting
the grapheme at that same index restores the original line exactly:
text, grapheme_count and both boundary tables (in release build
wrapping semantics; a debug build aborts on the transient underflow of
the shifted entry when the deleted grapheme starts at byte 0). -/
theorem insert_then_delete_restores (cs : List Str) (gi : Nat) (c : Char)
    (hv : ValidC cs) (hgi : gi ≤ cs.length) :
    ∃ l1, (Line.from_clusters cs).insert_char gi c = some l1 ∧
      l1.delete_grapheme gi = some (Line.from_clusters cs) := by
  have hins := insert_char_rep cs gi c hv
  rw [if_pos hgi] at hins
  refine ⟨_, hins, ?_⟩
  have hv2 : ValidC (cs.take gi ++ [c] :: cs.drop gi) := by
    refine validC_append _ _ (validC_take cs gi hv) ?_
    intro x hx
    rcases List.mem_cons.mp hx with h1 | h1
    · rw [h1]; simp
    · exact validC_drop cs gi hv x h1
  rw [delete_grapheme_rep _ gi hv2, if_pos (by simp; omega)]
  have hlen : (cs.take gi).length = gi := by simp; omega
  have herase := eraseIdx_append_length (cs.take gi) ([c] : Str) (cs.drop gi)
  rw [hlen] at herase
  rw [herase, List.take_append_drop]

/-- C6 witness at index 0 on the line ab. -/
theorem insert_then_delete_restores_witness :
    ∃ l1, (Line.from_clusters (segmentChars "ab".toList)).insert_char 0 'x' = some l1 ∧
      l1.delete_grapheme 0 = some (Line.from_clusters (segmentChars "ab".toList)) :=
  insert_then_delete_restores (segmentChars "ab".toList) 0 'x' (by decide) (by decide)

/-- C5: starting from from_string of any string (any valid cluster
decomposition) and applying any sequence of insert_char, insert_str and
delete_grapheme operations that completes without a panic, the
resulting line satisfies the boundary partition invariant: both tables
have length grapheme_count, are strictly increasing, start at byte 0,
tile [0, byte length) with adjacent nonempty inclusive ranges, and are
empty iff the text is empty. -/
theorem line_boundary_partition_invariant (cs : List Str) (ops : List LineOp) (l' : Line)
    (hv : ValidC cs) (hops : ∀ op ∈ ops, op.ValidOp)
    (h : applyOps (Line.from_clusters cs) ops = some l') :
    LineWF l' := by
  obtain ⟨cs2, hv2, rfl⟩ := applyOps_rep ops cs l' hv hops h
  exact from_clusters_wf cs2 hv2

/-- C5 witness: a concrete operation sequence on the line ab. -/
theorem line_boundary_partition_invariant_witness :
    LineWF ((applyOps (Line.from_clusters (segmentChars "ab".toList))
        [LineOp.ins_char 1 'x', LineOp.ins_str 1 (segmentChars "yz".toList), LineOp.del 0]).getD
      { text := [], grapheme_count := 0, grapheme_starts := [], grapheme_ends := [] }) :=
  line_boundary_partition_invariant (segmentChars "ab".toList)
    [LineOp.ins_char 1 'x', LineOp.ins_str 1 (segmentChars "yz".toList), LineOp.del 0] _
    (by decide) (by decide) (by decide)

theorem tig_go_isSome (cs : List Str) (ti : Nat) :
    ∀ (fuel i : Nat), i + fuel = cs.length →
      (Line.tig_go (Line.from_clusters cs) ti fuel i).isSome := by
  intro fuel
  induction fuel with
  | zero =>
    intro i h
    rw [Line.tig_go]
    rfl
  | succ fuel ih =>
    intro i h
    have hi : i < cs.length := by omega
    have hs : (Line.from_clusters cs).grapheme_starts[i]? =
        some (utf8Len (cs.take i).flatten) := by
      rw [show (Line.from_clusters cs).grapheme_starts = clusterStarts cs 0 from rfl,
        clusterStarts_getElem?, if_pos hi]
      simp
    have he : (Line.from_clusters cs).grapheme_ends[i]? =
        some (utf8Len (cs.take (i + 1)).flatten - 1) := by
      rw [show (Line.from_clusters cs).grapheme_ends = clusterEnds cs 0 from rfl,
        clusterEnds_getElem?, if_pos hi]
      simp
    rw [Line.tig_go]
    simp only [hs, he]
    by_cases hcond : utf8Len (cs.take (i + 1)).flatten - 1 ≥ ti ∧
        utf8Len (cs.take i).flatten ≤ ti
    · rw [if_pos hcond]; rfl
    · rw [if_neg hcond]
      exact ih (i + 1) (by omega)

/-- C8 amended: on an empty line (count 0) every query returns byte 0
(or the zero range) without touching the tables.  On a nonempty line:
grapheme_start clamps any index at or past count to the last entry;
text_index_to_grapheme clamps a text index past the byte length to the
last grapheme index count - 1 and never fails (its scan reads only in
bounds entries); next_grapheme_start and next_grapheme_end clamp
indices at or past count to the last entry but panic at index
count - 1 by reading entry count; prev_grapheme_start and
prev_grapheme_end succeed only up to index count (index count still
yields the last entry) and panic for every larger index, since entry
index - 1 is read with no upper bound check; grapheme_end has no range
check at all and panics for every index at or past count; and
text_index_to_grapheme_range clamps a text index past the byte length
to the FIRST grapheme boundary pair, not the last. -/
theorem grapheme_queries_amended :
    (∀ (l : Line) (gi : Nat), l.grapheme_count = 0 →
      l.grapheme_start gi = some 0 ∧ l.grapheme_end gi = some 0 ∧
      l.next_grapheme_start gi = some 0 ∧ l.prev_grapheme_start gi = some 0 ∧
      l.next_grapheme_end gi = some 0 ∧ l.prev_grapheme_end gi = some 0 ∧
      l.text_index_to_grapheme gi = some 0 ∧
      l.text_index_to_grapheme_range gi = some (0, 0)) ∧
    (∀ (cs : List Str) (gi : Nat), cs ≠ [] → cs.length ≤ gi →
      (Line.from_clusters cs).grapheme_start gi =
        (Line.from_clusters cs).grapheme_starts[cs.length - 1]? ∧
      ((Line.from_clusters cs).grapheme_starts[cs.length - 1]?).isSome ∧
      (Line.from_clusters cs).grapheme_end gi = none ∧
      (Line.from_clusters cs).next_grapheme_start gi =
        (Line.from_clusters cs).grapheme_starts[cs.length - 1]? ∧
      (Line.from_clusters cs).next_grapheme_end gi =
        (Line.from_clusters cs).grapheme_ends[cs.length - 1]? ∧
      ((Line.from_clusters cs).grapheme_ends[cs.length - 1]?).isSome) ∧
    (∀ cs : List Str, cs ≠ [] →
      (Line.from_clusters cs).next_grapheme_start (cs.length - 1) = none ∧
      (Line.from_clusters cs).next_grapheme_end (cs.length - 1) = none) ∧
    (∀ (cs : List Str) (gi : Nat), cs ≠ [] →
      (gi ≤ cs.length →
        ((Line.from_clusters cs).prev_grapheme_start gi).isSome ∧
        ((Line.from_clusters cs).prev_grapheme_end gi).isSome) ∧
      ((Line.from_clusters cs).prev_grapheme_start cs.length =
        (Line.from_clusters cs).grapheme_starts[cs.length - 1]?) ∧
      (cs.length < gi →
        (Line.from_clusters cs).prev_grapheme_start gi = none ∧
        (Line.from_clusters cs).prev_grapheme_end gi = none)) ∧
    (∀ (cs : List Str) (ti : Nat), cs ≠ [] →
      ((Line.from_clusters cs).text_index_to_grapheme ti).isSome ∧
      (utf8Len cs.flatten < ti →
        (Line.from_clusters cs).text_index_to_grapheme ti = some (cs.length - 1))) ∧
    (∀ (cs : List Str) (ti : Nat), cs ≠ [] → utf8Len cs.flatten < ti →
      (Line.from_clusters cs).text_index_to_grapheme_range ti =
        some (0, utf8Len (cs.take 1).flatten - 1)) := by
  refine ⟨?_, ?_, ?_, ?_, ?_, ?_⟩
  · intro l gi h
    refine ⟨?_, ?_, ?_, ?_, ?_, ?_, ?_, ?_⟩
    · rw [Line.grapheme_start, if_pos h]
    · rw [Line.grapheme_end, if_pos h]
    · rw [Line.next_grapheme_start, if_pos h]
    · rw [Line.prev_grapheme_start, if_pos h]
    · rw [Line.next_grapheme_end, if_pos h]
    · rw [Line.prev_grapheme_end, if_pos h]
    · rw [Line.text_index_to_grapheme, if_pos h]
    · rw [Line.text_index_to_grapheme_range, if_pos h]
  · intro cs gi hne hge
    have hl0 : cs.length ≠ 0 := fun h => hne (List.length_eq_zero.mp h)
    refine ⟨?_, ?_, ?_, ?_, ?_, ?_⟩
    · rw [Line.grapheme_start,
        if_neg (show ¬ (Line.from_clusters cs).grapheme_count = 0 from hl0),
        if_pos (show gi ≥ (Line.from_clusters cs).grapheme_count from hge)]
      rfl
    · rw [show (Line.from_clusters cs).grapheme_starts = clusterStarts cs 0 from rfl,
        clusterStarts_getElem?, if_pos (by omega)]
      rfl
    · rw [Line.grapheme_end,
        if_neg (show ¬ (Line.from_clusters cs).grapheme_count = 0 from hl0)]
      rw [show (Line.from_clusters cs).grapheme_ends = clusterEnds cs 0 from rfl,
        clusterEnds_getElem?, if_neg (by omega)]
    · rw [Line.next_grapheme_start,
        if_neg (show ¬ (Line.from_clusters cs).grapheme_count = 0 from hl0),
        if_pos (show gi ≥ (Line.from_clusters cs).grapheme_count from hge)]
      rfl
    · rw [Line.next_grapheme_end,
        if_neg (show ¬ (Line.from_clusters cs).grapheme_count = 0 from hl0),
        if_pos (show gi ≥ (Line.from_clusters cs).grapheme_count from hge)]
      rfl
    · rw [show (Line.from_clusters cs).grapheme_ends = clusterEnds cs 0 from rfl,
        clusterEnds_getElem?, if_pos (by omega)]
      rfl
  · intro cs hne
    have hl0 : cs.length ≠ 0 := fun h => hne (List.length_eq_zero.mp h)
    constructor
    · rw [Line.next_grapheme_start,
        if_neg (show ¬ (Line.from_clusters cs).grapheme_count = 0 from hl0),
        if_neg (show ¬ cs.length - 1 ≥ (Line.from_clusters cs).grapheme_count from by
          show ¬ cs.length - 1 ≥ cs.length; omega)]
      rw [show cs.length - 1 + 1 = cs.length by omega,
        show (Line.from_clusters cs).grapheme_starts = clusterStarts cs 0 from rfl,
        clusterStarts_getElem?, if_neg (by omega)]
    · rw [Line.next_grapheme_end,
        if_neg (show ¬ (Line.from_clusters cs).grapheme_count = 0 from hl0),
        if_neg (show ¬ cs.length - 1 ≥ (Line.from_clusters cs).grapheme_count from by
          show ¬ cs.length - 1 ≥ cs.length; omega)]
      rw [show cs.length - 1 + 1 = cs.length by omega,
        show (Line.from_clusters cs).grapheme_ends = clusterEnds cs 0 from rfl,
        clusterEnds_getElem?, if_neg (by omega)]
  · intro cs gi hne
    have hl0 : cs.length ≠ 0 := fun h => hne (List.length_eq_zero.mp h)
    refine ⟨?_, ?_, ?_⟩
    · intro hle
      constructor
      · rw [Line.prev_grapheme_start,
          if_neg (show ¬ (Line.from_clusters cs).grapheme_count = 0 from hl0)]
        by_cases h0 : gi = 0
        · rw [if_pos h0,
            show (Line.from_clusters cs).grapheme_starts = clusterStarts cs 0 from rfl,
            clusterStarts_getElem?, if_pos (by omega)]
          rfl
        · rw [if_neg h0,
            show (Line.from_clusters cs).grapheme_starts = clusterStarts cs 0 from rfl,
            clusterStarts_getElem?, if_pos (by omega)]
          rfl
      · rw [Line.prev_grapheme_end,
          if_neg (show ¬ (Line.from_clusters cs).grapheme_count = 0 from hl0)]
        by_cases h0 : gi = 0
        · rw [if_pos h0,
            show (Line.from_clusters cs).grapheme_ends = clusterEnds cs 0 from rfl,
            clusterEnds_getElem?, if_pos (by omega)]
          rfl
        · rw [if_neg h0,
            show (Line.from_clusters cs).grapheme_ends = clusterEnds cs 0 from rfl,
            clusterEnds_getElem?, if_pos (by omega)]
          rfl
    · rw [Line.prev_grapheme_start,
        if_neg (show ¬ (Line.from_clusters cs).grapheme_count = 0 from hl0),
        if_neg (show ¬ cs.length = 0 from hl0)]
    · intro hgt
      constructor
      · rw [Line.prev_grapheme_start,
          if_neg (show ¬ (Line.from_clusters cs).grapheme_count = 0 from hl0),
          if_neg (show ¬ gi = 0 from by omega),
          show (Line.from_clusters cs).grapheme_starts = clusterStarts cs 0 from rfl,
          clusterStarts_getElem?, if_neg (by omega)]
      · rw [Line.prev_grapheme_end,
          if_neg (show ¬ (Line.from_clusters cs).grapheme_count = 0 from hl0),
          if_neg (show ¬ gi = 0 from by omega),
          show (Line.from_clusters cs).grapheme_ends = clusterEnds cs 0 from rfl,
          clusterEnds_getElem?, if_neg (by omega)]
  · intro cs ti hne
    have hl0 : cs.length ≠ 0 := fun h => hne (List.length_eq_zero.mp h)
    constructor
    · rw [Line.text_index_to_grapheme,
        if_neg (show ¬ (Line.from_clusters cs).grapheme_count = 0 from hl0)]
      by_cases hti : ti > utf8Len (Line.from_clusters cs).text
      · rw [if_pos hti]; rfl
      · rw [if_neg hti]
        exact tig_go_isSome cs ti cs.length 0 (by omega)
    · intro hgt
      rw [Line.text_index_to_grapheme,
        if_neg (show ¬ (Line.from_clusters cs).grapheme_count = 0 from hl0),
        if_pos (show ti > utf8Len (Line.from_clusters cs).text from hgt)]
      rfl
  · intro cs ti hne hgt
    have hl0 : cs.length ≠ 0 := fun h => hne (List.length_eq_zero.mp h)
    rw [Line.text_index_to_grapheme_range,
      if_neg (show ¬ (Line.from_clusters cs).grapheme_count = 0 from hl0),
      if_pos (show ti > utf8Len (Line.from_clusters cs).text from hgt)]
    have hs : (Line.from_clusters cs).grapheme_starts[0]? = some 0 := by
      rw [show (Line.from_clusters cs).grapheme_starts = clusterStarts cs 0 from rfl,
        clusterStarts_getElem?, if_pos (by omega)]
      rfl
    have he : (Line.from_clusters cs).grapheme_ends[0]? =
        some (utf8Len (cs.take 1).flatten - 1) := by
      rw [show (Line.from_clusters cs).grapheme_ends = clusterEnds cs 0 from rfl,
        clusterEnds_getElem?, if_pos (by omega)]
      simp
    simp only [hs, he]

/-- C8 amended witness: empty line query, clamped grapheme_start via
text_index_to_grapheme clamp, the panicking grapheme_end,
next_grapheme_start and prev_grapheme_start, and the clamp to the
first boundary pair of text_index_to_grapheme_range, all at concrete
inputs. -/
theorem grapheme_queries_amended_witness :
    (Line.from_string ([] : Str)).grapheme_start 3 = some 0 ∧
    (Line.from_clusters (segmentChars "ab".toList)).grapheme_end 5 = none ∧
    (Line.from_clusters (segmentChars "ab".toList)).next_grapheme_start 1 = none ∧
    (Line.from_clusters (segmentChars "a".toList)).prev_grapheme_start 2 = none ∧
    (Line.from_clusters (segmentChars "ab".toList)).text_index_to_grapheme 5 =
      some ((segmentChars "ab".toList).length - 1) ∧
    (Line.from_clusters (segmentChars "ab".toList)).text_index_to_grapheme_range 5 =
      some (0, utf8Len ((segmentChars "ab".toList).take 1).flatten - 1) := by
  refine ⟨(grapheme_queries_amended.1 (Line.from_string ([] : Str)) 3 (by decide)).1,
    ?_, ?_, ?_, ?_, ?_⟩
  · exact (grapheme_queries_amended.2.1 (segmentChars "ab".toList) 5
      (by decide) (by decide)).2.2.1
  · exact (grapheme_queries_amended.2.2.1 (segmentChars "ab".toList) (by decide)).1
  · exact ((grapheme_queries_amended.2.2.2.1 (segmentChars "a".toList) 2
      (by decide)).2.2 (by decide)).1
  · exact (grapheme_queries_amended.2.2.2.2.1 (segmentChars "ab".toList) 5
      (by decide)).2 (by decide)
  · exact grapheme_queries_amended.2.2.2.2.2 (segmentChars "ab".toList) 5
      (by decide) (by decide)

/-- C9: whenever paste_text completes (insert_str of the pasted string
at the grapheme position followed by the newline normalization pass),
no line of the resulting buffer contains a newline character, and
num_lines again equals the number of lines (each split increments both
together), assuming the usual buffer bookkeeping num_lines = length on
entry.  The normalization pass visits every line, so this holds even
when a single paste embeds several terminators. -/
theorem paste_restores_newline_invariant (b : Buffer) (p : TextPosition) (ds : List Str)
    (b' : Buffer) (hn : b.num_lines = b.text.length)
    (h : b.paste_text p ds = some b') :
    (∀ l ∈ b'.text, ('\n' : Char) ∉ l.text) ∧ b'.num_lines = b'.text.length := by
  rw [Buffer.paste_text] at h
  cases hrow : b.text[p.row]? with
  | none => simp only [hrow] at h; exact Option.noConfusion h
  | some l =>
    simp only [hrow] at h
    cases hins : l.insert_str p.grapheme ds with
    | none => simp only [hins] at h; exact Option.noConfusion h
    | some l2 =>
      simp only [hins] at h
      rw [Buffer.fix_newlines] at h
      by_cases h0 : (b.text.set p.row l2).length = 0
      · rw [if_pos (show ({ b with text := b.text.set p.row l2 } : Buffer).text.length = 0
          from h0)] at h
        have hb' : b' = { b with text := b.text.set p.row l2 } := by
          injection h with hh
          exact hh.symm
        have hnil : b.text.set p.row l2 = [] := List.length_eq_zero.mp h0
        subst hb'
        constructor
        · intro x hx
          rw [show ({ b with text := b.text.set p.row l2 } : Buffer).text =
            b.text.set p.row l2 from rfl, hnil] at hx
          simp at hx
        · show b.num_lines = (b.text.set p.row l2).length
          rw [List.length_set]
          exact hn
      · rw [if_neg (show ¬ ({ b with text := b.text.set p.row l2 } : Buffer).text.length = 0
          from h0)] at h
        cases hfl : Buffer.fix_loop
            (totalNl ({ b with text := b.text.set p.row l2 } : Buffer).text +
              ({ b with text := b.text.set p.row l2 } : Buffer).text.length + 1)
            ({ b with text := b.text.set p.row l2 } : Buffer).text
            ({ b with text := b.text.set p.row l2 } : Buffer).num_lines 0 with
        | none => simp only [hfl] at h; exact Option.noConfusion h
        | some r =>
          simp only [hfl] at h
          have hclean := fix_loop_clean _ _ _ _ _ _ hfl
            (by intro j hj; omega)
            (by show b.num_lines = (b.text.set p.row l2).length
                rw [List.length_set]; exact hn)
          have hb' : b' = { text := r.1, num_lines := r.2 } := by
            injection h with hh
            exact hh.symm
          subst hb'
          exact hclean

/-- C9 witness: pasting a string with two embedded newlines into the
one line buffer ab at grapheme 1. -/
theorem paste_restores_newline_invariant_witness :
    (∀ l ∈ ((Buffer.paste_text { text := [Line.from_string "ab".toList], num_lines := 1 }
        { row := 0, byte := 0, grapheme := 1 } (segmentChars "x\ny\nz".toList)).getD
        { text := [], num_lines := 0 }).text, ('\n' : Char) ∉ l.text) ∧
    ((Buffer.paste_text { text := [Line.from_string "ab".toList], num_lines := 1 }
        { row := 0, byte := 0, grapheme := 1 } (segmentChars "x\ny\nz".toList)).getD
        { text := [], num_lines := 0 }).num_lines =
      ((Buffer.paste_text { text := [Line.from_string "ab".toList], num_lines := 1 }
        { row := 0, byte := 0, grapheme := 1 } (segmentChars "x\ny\nz".toList)).getD
        { text := [], num_lines := 0 }).text.length :=
  paste_restores_newline_invariant
    { text := [Line.from_string "ab".toList], num_lines := 1 }
    { row := 0, byte := 0, grapheme := 1 } (segmentChars "x\ny\nz".toList) _
    (by decide) (by decide)

/-- C4 counterexample: on the one line buffer ab, copying the single
grapheme range (0,0)..(0,0) yields a, and pasting a back at (0,0) on an
identical fresh buffer yields aab, not the original text ab: the round
trip does not reproduce the buffer, it duplicates the copied range. -/
theorem copy_paste_round_trip_fails :
    Buffer.copy_text { text := [Line.from_string "ab".toList], num_lines := 1 }
        { row := 0, byte := 0, grapheme := 0 } { row := 0, byte := 0, grapheme := 0 } =
      some "a".toList ∧
    (Buffer.paste_text { text := [Line.from_string "ab".toList], num_lines := 1 }
        { row := 0, byte := 0, grapheme := 0 } (segmentChars "a".toList)).map
      (fun b => b.text.map Line.text) = some ["aab".toList] ∧
    ["aab".toList] ≠ ["ab".toList] := by
  decide

/-- C4 amended. -/
theorem copy_paste_same_row_duplicates
    (b : Buffer) (r g0 g1 b0 b1 : Nat) (cs ds : List Str)
    (hv : ValidC cs) (hd : ValidC ds)
    (hr : b.text[r]? = some (Line.from_clusters cs))
    (h01 : g0 ≤ g1) (h1 : g1 < cs.length)
    (hnl : ∀ l ∈ b.text, ('\n' : Char) ∉ l.text)
    (hds : ds.flatten = ((cs.take (g1 + 1)).drop g0).flatten) :
    Buffer.copy_text b { row := r, byte := b0, grapheme := g0 }
        { row := r, byte := b1, grapheme := g1 } =
      some (((cs.take (g1 + 1)).drop g0).flatten) ∧
    ∃ b', Buffer.paste_text b { row := r, byte := b0, grapheme := g0 } ds = some b' ∧
      b'.text.map Line.text =
        (b.text.map Line.text).set r
          ((cs.take g0).flatten ++ ((cs.take (g1 + 1)).drop g0).flatten ++
            (cs.drop g0).flatten) ∧
      b'.num_lines = b.num_lines := by
  have hmid : cs.drop g0 = ((cs.take (g1 + 1)).drop g0) ++ cs.drop (g1 + 1) := by
    have hM : (cs.take (g1 + 1)).drop g0 = (cs.drop g0).take (g1 + 1 - g0) :=
      List.drop_take ..
    conv_lhs => rw [← List.take_append_drop (g1 + 1 - g0) (cs.drop g0)]
    rw [← hM, List.drop_drop, show g0 + (g1 + 1 - g0) = g1 + 1 by omega]
  have htakes : cs.take (g1 + 1) = cs.take g0 ++ (cs.take (g1 + 1)).drop g0 := by
    conv_lhs => rw [← List.take_append_drop g0 (cs.take (g1 + 1))]
    rw [List.take_take, min_eq_left (by omega)]
  have hB : utf8Len (cs.take (g1 + 1)).flatten =
      utf8Len (cs.take g0).flatten + utf8Len ((cs.take (g1 + 1)).drop g0).flatten := by
    conv_lhs => rw [htakes]
    rw [List.flatten_append, utf8Len_append]
  have htext : cs.flatten = (cs.take g0).flatten ++ ((cs.take (g1 + 1)).drop g0).flatten ++
      (cs.drop (g1 + 1)).flatten := by
    rw [flatten_take_drop cs g0]
    conv_lhs => rw [hmid]
    rw [List.flatten_append, List.append_assoc]
  have hBpos : 0 < utf8Len (cs.take (g1 + 1)).flatten := by
    refine utf8Len_pos _ (flatten_ne_nil _ (validC_take cs (g1 + 1) hv) ?_)
    intro hh
    have : (cs.take (g1 + 1)).length = 0 := by rw [hh]; rfl
    rw [List.length_take] at this
    omega
  constructor
  · rw [Buffer.copy_text, if_pos rfl]
    simp only [hr, from_clusters_grapheme_start cs g0 (show g0 < cs.length by omega),
      from_clusters_grapheme_end cs g1 h1]
    rw [show utf8Len (cs.take (g1 + 1)).flatten - 1 + 1 =
      utf8Len (cs.take (g1 + 1)).flatten by omega]
    rw [show (Line.from_clusters cs).text = cs.flatten from rfl, htext, hB]
    exact byteSlice_at _ _ _
  · have hcs_ne : cs ≠ [] := by
      intro hh
      rw [hh] at h1
      simp at h1
    have hins := insert_str_rep cs ds g0 hv hd hcs_ne
    rw [if_pos (by omega)] at hins
    have hlnl : ('\n' : Char) ∉ cs.flatten := by
      have := hnl _ (mem_of_getElem?' _ _ _ hr)
      exact this
    have hl2 : ('\n' : Char) ∉ (cs.take g0 ++ ds ++ cs.drop g0).flatten := by
      intro hm
      apply hlnl
      rw [List.flatten_append, List.flatten_append] at hm
      rcases List.mem_append.mp hm with hm1 | hm1
      · rcases List.mem_append.mp hm1 with hm2 | hm2
        · rw [flatten_take_drop cs g0]
          exact List.mem_append.mpr (Or.inl hm2)
        · rw [hds] at hm2
          rw [flatten_take_drop cs g0, hmid, List.flatten_append]
          exact List.mem_append.mpr (Or.inr (List.mem_append.mpr (Or.inl hm2)))
      · rw [flatten_take_drop cs g0]
        exact List.mem_append.mpr (Or.inr hm1)
    have hnl2 : ∀ l ∈ (b.text.set r (Line.from_clusters (cs.take g0 ++ ds ++ cs.drop g0))),
        ('\n' : Char) ∉ l.text := by
      intro l hl
      rcases List.mem_or_eq_of_mem_set hl with hm | hm
      · exact hnl l hm
      · rw [hm]
        exact hl2
    have hfix := fix_newlines_noop
      { text := b.text.set r (Line.from_clusters (cs.take g0 ++ ds ++ cs.drop g0))
      , num_lines := b.num_lines } hnl2
    have hpaste : Buffer.paste_text b { row := r, byte := b0, grapheme := g0 } ds =
        some { text := b.text.set r (Line.from_clusters (cs.take g0 ++ ds ++ cs.drop g0)),
               num_lines := b.num_lines } := by
      rw [Buffer.paste_text]
      simp only [hr, hins]
      exact hfix
    have htext2 :
        ((b.text.set r (Line.from_clusters (cs.take g0 ++ ds ++ cs.drop g0))).map Line.text) =
        (b.text.map Line.text).set r
          ((cs.take g0).flatten ++ ((cs.take (g1 + 1)).drop g0).flatten ++
            (cs.drop g0).flatten) := by
      rw [List.map_set]
      rw [show (Line.from_clusters (cs.take g0 ++ ds ++ cs.drop g0)).text =
        (cs.take g0 ++ ds ++ cs.drop g0).flatten from rfl]
      rw [List.flatten_append, List.flatten_append, hds]
    exact ⟨_, hpaste, htext2, rfl⟩

/-- C4 amended witness: the counterexample input, showing the copied
string and the duplicated paste result. -/
theorem copy_paste_same_row_duplicates_witness :
    Buffer.copy_text { text := [Line.from_string "ab".toList], num_lines := 1 }
        { row := 0, byte := 0, grapheme := 0 } { row := 0, byte := 0, grapheme := 0 } =
      some ((((segmentChars "ab".toList).take (0 + 1)).drop 0).flatten) ∧
    ∃ b', Buffer.paste_text { text := [Line.from_string "ab".toList], num_lines := 1 }
        { row := 0, byte := 0, grapheme := 0 } (segmentChars "a".toList) = some b' ∧
      b'.text.map Line.text =
        (({ text := [Line.from_string "ab".toList], num_lines := 1 } : Buffer).text.map
          Line.text).set 0
          (((segmentChars "ab".toList).take 0).flatten ++
            (((segmentChars "ab".toList).take (0 + 1)).drop 0).flatten ++
            ((segmentChars "ab".toList).drop 0).flatten) ∧
      b'.num_lines = ({ text := [Line.from_string "ab".toList], num_lines := 1 } : Buffer).num_lines :=
  copy_paste_same_row_duplicates
    { text := [Line.from_string "ab".toList], num_lines := 1 } 0 0 0 0 0
    (segmentChars "ab".toList) (segmentChars "a".toList)
    (by decide) (by decide) (by decide) (by decide) (by decide) (by decide) (by decide)

theorem segmentChars_flatten (s : Str) : (segmentChars s).flatten = s := by
  rw [segmentChars]
  induction s with
  | nil => rfl
  | cons c t ih => simp [ih]

theorem from_string_text (s : Str) : (Line.from_string s).text = s := by
  rw [Line.from_string,
    show (Line.from_clusters (segmentChars s)).text = (segmentChars s).flatten from rfl,
    segmentChars_flatten]

theorem totalNl_append (a b : List Line) : totalNl (a ++ b) = totalNl a + totalNl b := by
  simp [totalNl]

theorem totalNl_cons (x : Line) (l : List Line) : totalNl (x :: l) = lineNl x + totalNl l := by
  simp [totalNl]

/-- The fuel chosen by fix_newlines is always sufficient: one unit per
loop iteration, and each iteration either advances past a line or
splits one, removing exactly one newline while adding one line, so the
measure newline count plus remaining lines strictly decreases. -/
theorem fix_loop_some (fuel : Nat) : ∀ (ls : List Line) (n idx : Nat),
    totalNl ls + (ls.length - idx) < fuel →
    ∃ r, Buffer.fix_loop fuel ls n idx = some r := by
  induction fuel with
  | zero => intro ls n idx h; omega
  | succ fuel ih =>
    intro ls n idx h
    rw [Buffer.fix_loop]
    by_cases hend : idx ≥ ls.length
    · rw [if_pos hend]; exact ⟨_, rfl⟩
    · rw [if_neg hend]
      have hidx : idx < ls.length := by omega
      simp only [List.getElem?_eq_getElem hidx]
      cases hfind : findNlSplit ls[idx].text with
      | none => exact ih ls n (idx + 1) (by omega)
      | some pq =>
        obtain ⟨hsplit, hpre, t, ht⟩ := findNlSplit_some _ _ _ hfind
        simp only [ht, delete_first_from_string]
        have hvi : vecInsert (ls.set idx { ls[idx] with text := pq.1 }) (idx + 1)
            (Line.from_string t) =
            some ((ls.set idx { ls[idx] with text := pq.1 }).take (idx + 1) ++
              Line.from_string t :: (ls.set idx { ls[idx] with text := pq.1 }).drop (idx + 1)) := by
          rw [vecInsert, if_pos (by rw [List.length_set]; omega)]
        simp only [hvi]
        apply ih
        have hset : ls.set idx { ls[idx] with text := pq.1 } =
            ls.take idx ++ { ls[idx] with text := pq.1 } :: ls.drop (idx + 1) := by
          rw [List.set_eq_take_append_cons_drop, if_pos hidx]
        have hls : ls = ls.take idx ++ ls[idx] :: ls.drop (idx + 1) := by
          conv_lhs => rw [← List.take_append_drop idx ls, List.drop_eq_getElem_cons hidx]
        have htotS : totalNl (ls.set idx { ls[idx] with text := pq.1 }) =
            totalNl (ls.take idx) + pq.1.count '\n' + totalNl (ls.drop (idx + 1)) := by
          rw [hset, totalNl_append, totalNl_cons]
          have hln : lineNl { ls[idx] with text := pq.1 } = pq.1.count '\n' := rfl
          rw [hln]
          omega
        have htotL : totalNl ls = totalNl (ls.take idx) +
            (pq.1.count '\n' + (t.count '\n' + 1)) + totalNl (ls.drop (idx + 1)) := by
          conv_lhs => rw [hls]
          rw [totalNl_append, totalNl_cons]
          have : lineNl ls[idx] = pq.1.count '\n' + (t.count '\n' + 1) := by
            rw [lineNl, hsplit, ht, List.count_append]
            simp
          omega
        have hpre0 : pq.1.count '\n' = 0 := List.count_eq_zero.mpr hpre
        have hS : totalNl ((ls.set idx { ls[idx] with text := pq.1 }).take (idx + 1) ++
            Line.from_string t :: (ls.set idx { ls[idx] with text := pq.1 }).drop (idx + 1)) =
            totalNl (ls.set idx { ls[idx] with text := pq.1 }) + t.count '\n' := by
          rw [totalNl_append, totalNl_cons]
          have h1 : lineNl (Line.from_string t) = t.count '\n' := by
            rw [lineNl, from_string_text]
          have h2 : totalNl ((ls.set idx { ls[idx] with text := pq.1 }).take (idx + 1)) +
              totalNl ((ls.set idx { ls[idx] with text := pq.1 }).drop (idx + 1)) =
              totalNl (ls.set idx { ls[idx] with text := pq.1 }) := by
            rw [← totalNl_append, List.take_append_drop]
          omega
        have hlen : ((ls.set idx { ls[idx] with text := pq.1 }).take (idx + 1) ++
            Line.from_string t :: (ls.set idx { ls[idx] with text := pq.1 }).drop (idx + 1)).length =
            ls.length + 1 := by
          rw [List.length_append, List.length_take, List.length_cons, List.length_drop,
            List.length_set]
          omega
        rw [hS, hlen, htotS]
        rw [htotL] at h
        omega

/-- Buffer::fix_newlines always terminates with a result. -/
theorem fix_newlines_some (b : Buffer) : ∃ b', b.fix_newlines = some b' := by
  rw [Buffer.fix_newlines]
  by_cases h0 : b.text.length = 0
  · rw [if_pos h0]; exact ⟨_, rfl⟩
  · rw [if_neg h0]
    obtain ⟨r, hr⟩ := fix_loop_some (totalNl b.text + b.text.length + 1) b.text b.num_lines 0
      (by omega)
    rw [hr]
    exact ⟨_, rfl⟩
